import Mathlib

/-!
Bounded-depth directory search (`cmd/lesson2/file.go`).

A shallow embedding of the search engine of `file.go` and of the parts of the Go
standard library it calls (`strings.Split`, `strings.Contains`, `filepath.Join`),
followed by the properties proved about it.

Modelling conventions.

* A Go string is its sequence of bytes, `Str = List Nat` (each byte a number below 256);
  `len(s)` is `List.length`.
* The path separator of the platform (`filepath.Separator`) is a parameter `sep`:
  `47` (slash) on Unix, `92` (backslash) on Windows.
* The file system below the base directory is a finite tree: a `Listing` is what
  `os.ReadDir` returns for a directory (an error, or the entries in the order
  `os.ReadDir` yields them), and every directory entry carries the listing of the
  directory it names.
* The deadline of `Start` is an oracle `done : Nat → Bool`: `done n` is what the
  `n`-th poll of `ctx.Done()` of that call finds (`true`: the deadline has elapsed).
* `filepath.Join` is `Join sep` on the arguments the walk passes (a clean directory path
  and a plain name); `AddFileWith` takes the library function as a parameter, and
  `JoinUnix` is `filepath.Join` on Unix, cleaning included (`JoinUnix_eq_Join` relates
  the two).
* `log.Println(err)` appends to a log kept in the walk state.
* `maxDeep` is a Go `int`, taken as 64 bits wide: `IncreaseDeep` wraps around.
* The goroutine of `main` that calls `IncreaseDeep` while `Start` runs is an oracle
  `signal : Nat → Bool`: `signal n` says that the call takes effect just before the
  `n`-th poll of `ctx.Done()`, that is between two directory visits (`readDirSignal`).
-/

namespace Bpgo

/-- A Go string, as its sequence of bytes. -/
abbrev Str := List Nat

/-- The byte string of an ASCII text (used for writing examples only). -/
def ascii (s : String) : Str := s.data.map Char.toNat

/-- The backslash, the separator `canSearchDeeper` splits the remainder on. -/
def backslash : Nat := 92

/-- The slash, `filepath.Separator` on Unix. -/
def slash : Nat := 47

/-! ## `unicode/utf8` and `strings` -/

/-- Table `first` of `unicode/utf8` together with `acceptRanges`: for a leading byte of a
multi-byte sequence, the length of the sequence and the accepted range of the second
byte; `none` for ASCII and for bytes that cannot start a sequence. -/
def leadInfo (b : Nat) : Option (Nat × Nat × Nat) :=
  if 0xC2 ≤ b ∧ b ≤ 0xDF then some (2, 0x80, 0xBF)
  else if b = 0xE0 then some (3, 0xA0, 0xBF)
  else if b = 0xED then some (3, 0x80, 0x9F)
  else if 0xE1 ≤ b ∧ b ≤ 0xEF then some (3, 0x80, 0xBF)
  else if b = 0xF0 then some (4, 0x90, 0xBF)
  else if 0xF1 ≤ b ∧ b ≤ 0xF3 then some (4, 0x80, 0xBF)
  else if b = 0xF4 then some (4, 0x80, 0x8F)
  else none

/-- The size returned by `utf8.DecodeRuneInString`: the width of the first UTF-8 sequence
of `s`, `1` for an invalid or truncated one, `0` for the empty string. -/
def runeLen : Str → Nat
  | [] => 0
  | s0 :: t =>
    match leadInfo s0 with
    | none => 1
    | some (sz, lo, hi) =>
      if t.length + 1 < sz then 1
      else
        match t with
        | [] => 1
        | s1 :: t1 =>
          if s1 < lo ∨ hi < s1 then 1
          else if sz ≤ 2 then 2
          else
            match t1 with
            | [] => 1
            | s2 :: t2 =>
              if s2 < 0x80 ∨ 0xBF < s2 then 1
              else if sz ≤ 3 then 3
              else
                match t2 with
                | [] => 1
                | s3 :: _ => if s3 < 0x80 ∨ 0xBF < s3 then 1 else 4

/-- Loop of `strings.explode(s, -1)`: cut `s` into its UTF-8 sequences. Every round
removes at least one byte, so `fuel = len(s)` rounds are enough. -/
def explodeLoop : Nat → Str → List Str
  | 0, _ => []
  | fuel + 1, s =>
    if s = [] then []
    else s.take (runeLen s) :: explodeLoop fuel (s.drop (runeLen s))

/-- The function `strings.explode(s, -1)`. -/
def explode (s : Str) : List Str := explodeLoop s.length s

/-- The function `strings.Index(s, substr)`: the index of the first occurrence of `substr`
in `s`; `none` stands for `-1`. -/
def Index : Str → Str → Option Nat
  | [], substr => if substr = [] then some 0 else none
  | c :: s, substr =>
    if substr.isPrefixOf (c :: s) then some 0 else (Index s substr).map (· + 1)

/-- The function `strings.Contains(s, substr)`, that is `Index(s, substr) >= 0`. -/
def Contains (s substr : Str) : Bool := (Index s substr).isSome

/-- Loop of `strings.genSplit(s, sep, 0, -1)` for a non-empty `sep`: cut at the first
occurrence of `sep`, continue behind it. Every round removes at least one byte, so
`fuel = len(s)` rounds are enough. -/
def genSplitLoop (sep : Str) : Nat → Str → List Str
  | 0, s => [s]
  | fuel + 1, s =>
    match Index s sep with
    | none => [s]
    | some m => s.take m :: genSplitLoop sep fuel (s.drop (m + sep.length))

/-- The function `strings.Split(s, sep)`. -/
def Split (s sep : Str) : List Str :=
  if sep = [] then explode s else genSplitLoop sep s.length s

/-! ## `path/filepath` -/

/-- The function `filepath.Join(dir, name)` for a cleaned directory path `dir` and a single
plain component `name` (not `.` or `..`, free of separators), which is how the walk calls
it: empty elements are ignored, and no separator is added behind a directory path that
already ends in one (a root). `filepath.Join` cleans its result; for other arguments (a
path that is not clean, a name `.` or `..`) this function differs from it. -/
def Join (sep : Nat) (dir name : Str) : Str :=
  if dir = [] then name
  else if name = [] then dir
  else if dir.getLast? = some sep then dir ++ name
  else dir ++ sep :: name

/-! ## Data model -/

/-- A Go `error` value: one made by `errors.New`, or one reported by the operating
system. -/
inductive Error where
  | text (msg : String)
  | sys (code : Nat)
  deriving DecidableEq, Repr

/-- The constant `ErrorWrongPath`. -/
def ErrorWrongPath : String := "invalid path argument"

/-- The constant `ErrorEmptyPath`. -/
def ErrorEmptyPath : String := "empty path argument"

/-- The constant `defaultMaxDeep`. -/
def defaultMaxDeep : Int := 2

/-- An `os.FileInfo`: the name, whether it is a directory, and the rest of the metadata
(size, mode, modification time), passed through unchanged. -/
structure OsFileInfo where
  name : Str
  isDir : Bool
  data : Nat
  deriving DecidableEq, Repr

/-- The struct `fileInfo`: an `os.FileInfo` with a path. -/
structure fileInfo where
  FileInfo : OsFileInfo
  path : Str
  deriving DecidableEq, Repr

/-- The method `fileInfo.Path`. -/
def fileInfo.Path (fi : fileInfo) : Str := fi.path

/-- The method `Name` that `fileInfo` inherits from the embedded `os.FileInfo`. -/
def fileInfo.Name (fi : fileInfo) : Str := fi.FileInfo.name

/-- The struct `Search`. -/
structure Search where
  maxDeep : Int
  basePath : Str
  list : List fileInfo
  deriving DecidableEq, Repr

mutual
/-- What `os.ReadDir` returns for a directory: an error, or its entries in the order
`os.ReadDir` yields them. -/
inductive Listing where
  | error (err : Error)
  | ok (entries : List DirEntry)
/-- An `os.DirEntry`, with what the file system holds behind it: for a non-directory
(`IsDir()` false) the result of `Info()`, for a directory the result of `os.ReadDir` on
it. -/
inductive DirEntry where
  | file (name : Str) (info : Except Error OsFileInfo)
  | dir (name : Str) (listing : Listing)
end

/-- The state of a walk: the `Search` object, the number of polls of `ctx.Done()` made so
far, and the errors written by `log.Println`. -/
structure Walk where
  s : Search
  polls : Nat
  log : List Error

/-! ## The engine -/

/-- The method `Search.canSearchDeeper`. -/
def canSearchDeeper (s : Search) (path : Str) : Bool :=
  let paths := Split path s.basePath
  paths.length == 2 &&
    (decide ((paths.getD 1 []).length < 2) ||
      decide (((Split (paths.getD 1 []) [backslash]).length : Int) ≤ s.maxDeep))

/-- The method `Search.AddFile` as the walk calls it, with `Join sep` for `filepath.Join`:
the new state and the returned error (always `nil`). `AddFileWith` is the method over the
library function itself. -/
def AddFile (sep : Nat) (s : Search) (file : OsFileInfo) (path : Str) : Search × Option Error :=
  ({ s with list := s.list ++ [{ FileInfo := file, path := Join sep path file.name }] }, none)

mutual
/-- The method `Search.readDir`, on the listing `os.ReadDir(path)` would return. -/
def readDir (sep : Nat) (done : Nat → Bool) (path : Str) (listing : Listing) (w : Walk) :
    Option Error × Walk :=
  if done w.polls then (none, { w with polls := w.polls + 1 })
  else if canSearchDeeper w.s path then
    match listing with
    | .error err => (some err, { w with polls := w.polls + 1 })
    | .ok dirEntry => rangeLoop sep done path dirEntry { w with polls := w.polls + 1 }
  else (none, { w with polls := w.polls + 1 })
termination_by structural listing
/-- The loop `for _, file := range dirEntry` of `readDir`, from the entries still to be
processed. -/
def rangeLoop (sep : Nat) (done : Nat → Bool) (path : Str) (dirEntry : List DirEntry)
    (w : Walk) : Option Error × Walk :=
  match dirEntry with
  | [] => (none, w)
  | .dir name listing :: rest =>
    match readDir sep done (Join sep path name) listing w with
    | (some err, w1) => rangeLoop sep done path rest { w1 with log := w1.log ++ [err] }
    | (none, w1) => rangeLoop sep done path rest w1
  | .file _ (.error err) :: _ => (some err, w)
  | .file _ (.ok fi) :: rest =>
    match AddFile sep w.s fi path with
    | (s1, some err) => (some err, { w with s := s1 })
    | (s1, none) => rangeLoop sep done path rest { w with s := s1 }
termination_by structural dirEntry
end

/-- The method `Search.Start`, with the listing of the base directory and the deadline
oracle of this call: the returned error and the state the walk leaves. -/
def Start (sep : Nat) (done : Nat → Bool) (root : Listing) (s : Search) : Option Error × Walk :=
  readDir sep done s.basePath root { s := s, polls := 0, log := [] }

/-- The method `Search.HasMatch`. -/
def HasMatch (_s : Search) (file : fileInfo) (substr : Str) : Bool :=
  Contains file.Name substr

/-- The method `Search.List`. -/
def Search.List (s : Search) : List fileInfo := s.list

/-- The method `Search.Find`: the loop appends every matching record to `matchList`. -/
def Find (s : Search) (substr : Str) : List fileInfo :=
  s.List.foldl (fun matchList fi => if HasMatch s fi substr then matchList ++ [fi] else matchList) []

/-- The method `Search.IncreaseDeep`; `maxDeep` is a 64-bit signed `int`, so the addition
wraps around. -/
def IncreaseDeep (s : Search) : Search :=
  { s with maxDeep := (s.maxDeep + 2 + 2 ^ 63) % 2 ^ 64 - 2 ^ 63 }

/-- The function `InitSearch`, with `os.Stat` and `filepath.Abs` as oracles. -/
def InitSearch (stat : Str → Except Error OsFileInfo) (abs : Str → Except Error Str)
    (path : Str) : Except Error Search :=
  if path = [] then .error (.text ErrorEmptyPath)
  else
    match stat path with
    | .error err => .error err
    | .ok dir =>
      if !dir.isDir then .error (.text ErrorWrongPath)
      else
        match abs path with
        | .error err => .error err
        | .ok absPath => .ok { list := [], basePath := absPath, maxDeep := defaultMaxDeep }


/-! ## Specification-side notions -/

mutual
/-- No `Info()` call fails anywhere in the tree below a listing. -/
def Listing.metadataOk : Listing → Bool
  | .error _ => true
  | .ok entries => entriesMetadataOk entries
/-- No `Info()` call fails anywhere in or below the given entries. -/
def entriesMetadataOk : List DirEntry → Bool
  | [] => true
  | .file _ (.error _) :: _ => false
  | .file _ (.ok _) :: rest => entriesMetadataOk rest
  | .dir _ listing :: rest => listing.metadataOk && entriesMetadataOk rest
end

mutual
/-- No `os.ReadDir` call fails anywhere in the tree: the listing itself and the listing of
every directory below it succeed. -/
def Listing.listingsOk : Listing → Bool
  | .error _ => false
  | .ok entries => entriesListingsOk entries
/-- No `os.ReadDir` call fails for a directory in or below the given entries. -/
def entriesListingsOk : List DirEntry → Bool
  | [] => true
  | .file _ _ :: rest => entriesListingsOk rest
  | .dir _ listing :: rest => listing.listingsOk && entriesListingsOk rest
end

mutual
/-- Depth-first flattening of the permitted part of the tree below the directory `path`
with listing `listing`, for base path `base` and depth limit `limit`: nothing when the
directory is not permitted (or cannot be listed), otherwise the flattening of its
entries. -/
def flattenListing (sep : Nat) (base : Str) (limit : Int) (path : Str) : Listing → List fileInfo
  | .error _ => []
  | .ok entries =>
    if canSearchDeeper { maxDeep := limit, basePath := base, list := [] } path then
      flattenEntries sep base limit path entries
    else []
/-- Depth-first flattening of the entries of the directory `path`, in listing order: a
file contributes its own record, a subdirectory the flattening of its subtree. -/
def flattenEntries (sep : Nat) (base : Str) (limit : Int) (path : Str) :
    List DirEntry → List fileInfo
  | [] => []
  | .file _ (.ok fi) :: rest =>
    { FileInfo := fi, path := Join sep path fi.name } :: flattenEntries sep base limit path rest
  | .file _ (.error _) :: rest => flattenEntries sep base limit path rest
  | .dir name listing :: rest =>
    flattenListing sep base limit (Join sep path name) listing ++
      flattenEntries sep base limit path rest
end

mutual
/-- Every file below a listing, in depth-first listing order, each with its depth: the
number of path segments between the base directory and the file (`depth` for a file
listed in the directory itself, one more for each directory in between). -/
def filesOfListing (sep : Nat) (depth : Nat) (path : Str) : Listing → List (Nat × fileInfo)
  | .error _ => []
  | .ok entries => filesOfEntries sep depth path entries
/-- Every file in or below the given entries of the directory `path`, with its depth. -/
def filesOfEntries (sep : Nat) (depth : Nat) (path : Str) :
    List DirEntry → List (Nat × fileInfo)
  | [] => []
  | .file _ (.ok fi) :: rest =>
    (depth, { FileInfo := fi, path := Join sep path fi.name }) ::
      filesOfEntries sep depth path rest
  | .file _ (.error _) :: rest => filesOfEntries sep depth path rest
  | .dir name listing :: rest =>
    filesOfListing sep (depth + 1) (Join sep path name) listing ++
      filesOfEntries sep depth path rest
end

mutual
/-- The names of all entries in the tree below a listing. -/
def Listing.names : Listing → List Str
  | .error _ => []
  | .ok entries => entriesNames entries
/-- The names of the given entries and of all entries below them. -/
def entriesNames : List DirEntry → List Str
  | [] => []
  | .file name _ :: rest => name :: entriesNames rest
  | .dir name listing :: rest => name :: (listing.names ++ entriesNames rest)
end

mutual
/-- The paths of all directories strictly below the directory `path` with the given
listing: the arguments `readDir` can be called with below `path`. -/
def dirPathsListing (sep : Nat) (path : Str) : Listing → List Str
  | .error _ => []
  | .ok entries => dirPathsEntries sep path entries
/-- The paths of the directories among the given entries of `path`, and below them. -/
def dirPathsEntries (sep : Nat) (path : Str) : List DirEntry → List Str
  | [] => []
  | .file _ _ :: rest => dirPathsEntries sep path rest
  | .dir name listing :: rest =>
    Join sep path name ::
      (dirPathsListing sep (Join sep path name) listing ++ dirPathsEntries sep path rest)
end

/-- A plain file name: not empty, not `.` or `..`, and free of the separator. -/
def ValidName (sep : Nat) (name : Str) : Prop :=
  name ≠ [] ∧ sep ∉ name ∧ name ≠ ascii "." ∧ name ≠ ascii ".."

instance (sep : Nat) (name : Str) : Decidable (ValidName sep name) := by
  unfold ValidName; infer_instance

/-- A valid directory tree: every entry has a plain name. -/
def ValidTree (sep : Nat) (root : Listing) : Prop := ∀ name ∈ root.names, ValidName sep name

instance (sep : Nat) (root : Listing) : Decidable (ValidTree sep root) := by
  unfold ValidTree; infer_instance

/-- The base path does not occur a second time in the path of any directory below it:
the part of the directory path behind the base path does not contain the base path. -/
def BaseOnce (sep : Nat) (base : Str) (root : Listing) : Prop :=
  ∀ p ∈ dirPathsListing sep base root, ¬ base <:+: p.drop base.length

instance (sep : Nat) (base : Str) (root : Listing) : Decidable (BaseOnce sep base root) := by
  unfold BaseOnce; infer_instance

/-- The deadline oracle of a call during which the deadline never elapses. -/
def never : Nat → Bool := fun _ => false

/-- The depth test of the bounded walk on a file with its depth: the file is listed in the
base directory itself, or its depth is at most the limit. -/
def withinDepth (limit : Int) (p : Nat × fileInfo) : Bool :=
  decide (p.1 = 1) || decide ((p.1 : Int) ≤ limit)

/-- The separator-delimited segments of a remainder as directory names: the non-empty
pieces between separators. -/
def segments (sep : Nat) (rest : Str) : List Str :=
  (Split rest [sep]).filter (fun p => decide (p ≠ []))

/-- Metadata of the file `b.js` of the scenario. -/
def bJs : OsFileInfo := { name := ascii "b.js", isDir := false, data := 1 }

/-- Metadata of the file `c.js` of the scenario. -/
def cJs : OsFileInfo := { name := ascii "c.js", isDir := false, data := 2 }

/-- The base directory of the scenario: it contains exactly the files `a/b.js` and
`a/b/c.js`; `os.ReadDir` yields the directory `b` before the file `b.js`. -/
def jsTree : Listing :=
  .ok [.dir (ascii "a") (.ok [.dir (ascii "b") (.ok [.file (ascii "c.js") (.ok cJs)]),
    .file (ascii "b.js") (.ok bJs)])]

/-- Metadata of a file `f`. -/
def fInfo : OsFileInfo := { name := ascii "f", isDir := false, data := 0 }

/-- A base directory that contains the single file `f`. -/
def oneFileTree : Listing := .ok [.file (ascii "f") (.ok fInfo)]

/-- The record that `AddFile` builds for `a/b.js` of the scenario below `base`. -/
def bJsRecord (sep : Nat) (base : Str) : fileInfo :=
  { FileInfo := bJs, path := Join sep (Join sep base (ascii "a")) (ascii "b.js") }

/-- The record that `AddFile` builds for `a/b/c.js` of the scenario below `base`. -/
def cJsRecord (sep : Nat) (base : Str) : fileInfo :=
  { FileInfo := cJs,
    path := Join sep (Join sep (Join sep base (ascii "a")) (ascii "b")) (ascii "c.js") }

/-- No `Info()` call fails for a file listed directly among the given entries (whatever
happens inside the directories among them). -/
def topMetadataOk : List DirEntry → Bool
  | [] => true
  | .file _ (.error _) :: _ => false
  | .file _ (.ok _) :: rest => topMetadataOk rest
  | .dir _ _ :: rest => topMetadataOk rest

/-- The records of the files listed directly among the given entries of the directory
`path`, in listing order. -/
def directFiles (sep : Nat) (path : Str) : List DirEntry → List fileInfo
  | [] => []
  | .file _ (.ok fi) :: rest =>
    { FileInfo := fi, path := Join sep path fi.name } :: directFiles sep path rest
  | .file _ (.error _) :: rest => directFiles sep path rest
  | .dir _ _ :: rest => directFiles sep path rest

/-- A base directory with the empty directory `a`, followed by the file `f`, reading the
metadata of which fails with error 5. -/
def lateBadTree : Listing :=
  .ok [.dir (ascii "a") (.ok []), .file (ascii "f") (.error (.sys 5))]

/-- A deadline oracle: the deadline has not elapsed at the first poll and has elapsed at
every later one. -/
def afterFirst : Nat → Bool := fun n => decide (1 ≤ n)

/-- A base directory with the directory `a`, listing which fails with error 7, followed by
the file `b.js`. -/
def badDirTree : List DirEntry :=
  [.dir (ascii "a") (.error (.sys 7)), .file (ascii "b.js") (.ok bJs)]

/-- The deadline oracle of a call whose deadline has elapsed from the first poll on. -/
def elapsed : Nat → Bool := fun _ => true

/-- An `os.Stat` oracle that finds a directory at every path. -/
def statDir : Str → Except Error OsFileInfo :=
  fun _ => .ok { name := ascii "r", isDir := true, data := 0 }

/-- A `filepath.Abs` oracle that fails with error 2, as when the working directory is
gone. -/
def absFails : Str → Except Error Str := fun _ => .error (.sys 2)

/-- A `filepath.Abs` oracle for the working directory `/`: a relative path is put behind
the root. -/
def absRoot : Str → Except Error Str := fun p => .ok (slash :: p)

/-- A `filepath.Abs` oracle that returns its argument, as for a path that is absolute and
clean. -/
def absSame : Str → Except Error Str := fun p => .ok p

/-! ## Operations, reachable states and the signal -/

/-- One operation of the engine takes the state `s` to the state `s'`: `Start` (whatever
it returns), `AddFile`, `IncreaseDeep`, and the read-only `List` and `Find`. -/
inductive Op (sep : Nat) : Search → Search → Prop where
  | start (done : Nat → Bool) (root : Listing) (s : Search) :
      Op sep s (Start sep done root s).2.s
  | addFile (file : OsFileInfo) (path : Str) (s : Search) :
      Op sep s (AddFile sep s file path).1
  | increaseDeep (s : Search) : Op sep s (IncreaseDeep s)
  | list (s : Search) : Op sep s s
  | find (substr : Str) (s : Search) : Op sep s s

/-- The states reachable from a successful construction by operations of the engine. -/
inductive Reachable (sep : Nat) : Search → Prop where
  | init (stat : Str → Except Error OsFileInfo) (abs : Str → Except Error Str) (path : Str)
      (s : Search) : InitSearch stat abs path = .ok s → Reachable sep s
  | step (s s' : Search) : Reachable sep s → Op sep s s' → Reachable sep s'

/-- The state of the walk when the goroutine of `main` has called `IncreaseDeep` in the
meantime: `signal n` says that the call takes effect between the directory visit before
the `n`-th poll of `ctx.Done()` and that poll. -/
def arrive (signal : Nat → Bool) (w : Walk) : Walk :=
  if signal w.polls then { w with s := IncreaseDeep w.s } else w

mutual
/-- The method `Search.readDir` running while the goroutine of `main` may call
`IncreaseDeep`: the body of `readDir`, on the state that `arrive` leaves. -/
def readDirSignal (sep : Nat) (done signal : Nat → Bool) (path : Str) (listing : Listing)
    (w : Walk) : Option Error × Walk :=
  if done w.polls then (none, { arrive signal w with polls := w.polls + 1 })
  else if canSearchDeeper (arrive signal w).s path then
    match listing with
    | .error err => (some err, { arrive signal w with polls := w.polls + 1 })
    | .ok dirEntry =>
      rangeLoopSignal sep done signal path dirEntry
        { arrive signal w with polls := w.polls + 1 }
  else (none, { arrive signal w with polls := w.polls + 1 })
termination_by structural listing
/-- The loop of `readDirSignal` over the entries still to be processed. -/
def rangeLoopSignal (sep : Nat) (done signal : Nat → Bool) (path : Str)
    (dirEntry : List DirEntry) (w : Walk) : Option Error × Walk :=
  match dirEntry with
  | [] => (none, w)
  | .dir name listing :: rest =>
    match readDirSignal sep done signal (Join sep path name) listing w with
    | (some err, w1) =>
      rangeLoopSignal sep done signal path rest { w1 with log := w1.log ++ [err] }
    | (none, w1) => rangeLoopSignal sep done signal path rest w1
  | .file _ (.error err) :: _ => (some err, w)
  | .file _ (.ok fi) :: rest =>
    match AddFile sep w.s fi path with
    | (s1, some err) => (some err, { w with s := s1 })
    | (s1, none) => rangeLoopSignal sep done signal path rest { w with s := s1 }
termination_by structural dirEntry
end

/-- The method `Search.Start` running while the goroutine of `main` may call
`IncreaseDeep`. -/
def StartSignal (sep : Nat) (done signal : Nat → Bool) (root : Listing) (s : Search) :
    Option Error × Walk :=
  readDirSignal sep done signal s.basePath root { s := s, polls := 0, log := [] }

/-- The signal oracle of a run in which `IncreaseDeep` takes effect once, just before the
`k`-th poll. -/
def signalAt (k : Nat) : Nat → Bool := fun n => decide (n = k)

/-- Metadata of a file `f1`. -/
def f1Info : OsFileInfo := { name := ascii "f1", isDir := false, data := 1 }

/-- Metadata of a file `f2`. -/
def f2Info : OsFileInfo := { name := ascii "f2", isDir := false, data := 2 }

/-- A base directory with two branches, `x/d/f1` and `y/d/f2`. The walk polls the deadline
for the base directory (poll 0), `x` (1), `x/d` (2), `y` (3) and `y/d` (4). -/
def twoBranchTree : Listing :=
  .ok [.dir (ascii "x") (.ok [.dir (ascii "d") (.ok [.file (ascii "f1") (.ok f1Info)])]),
    .dir (ascii "y") (.ok [.dir (ascii "d") (.ok [.file (ascii "f2") (.ok f2Info)])])]

/-- A root directory with the directory `x`, which holds the file `f` and the directory
`y` with the file `f1`. -/
def rootTree : Listing :=
  .ok [.dir (ascii "x") (.ok [.file (ascii "f") (.ok fInfo),
    .dir (ascii "y") (.ok [.file (ascii "f1") (.ok f1Info)])])]

/-- The state a successful construction leaves for the base path `/r`. -/
def freshState : Search := { maxDeep := 2, basePath := ascii "/r", list := [] }

/-- The state with base path `/r` in which `maxDeep` is the largest even 64-bit `int`. -/
def topState : Search :=
  { maxDeep := 9223372036854775806, basePath := ascii "/r", list := [] }

/-- The listing of the branch `y` of `twoBranchTree`. -/
def yBranch : Listing := .ok [.dir (ascii "d") (.ok [.file (ascii "f2") (.ok f2Info)])]

/-- The state of the walk of `twoBranchTree` below `C:\r` with limit 2 when it reaches the
branch `y`: the base directory, `x` and `x/d` have been visited, nothing was collected. -/
def walkAtY : Walk :=
  { s := { maxDeep := 2, basePath := ascii "C:\\r", list := [] }, polls := 3, log := [] }

/-- The state a successful construction leaves for the base path `C:\r`. -/
def freshStateC : Search := { maxDeep := 2, basePath := ascii "C:\\r", list := [] }

/-! ## `AddFile` over the library's `filepath.Join` -/

/-- The method `Search.AddFile` with the function `filepath.Join` of the platform as a
parameter `join` (`join dir name` stands for `filepath.Join(dir, name)`): the new state and
the returned error (always `nil`). `AddFile sep` is the instance at `Join sep`. -/
def AddFileWith (join : Str → Str → Str) (s : Search) (file : OsFileInfo) (path : Str) :
    Search × Option Error :=
  ({ s with list := s.list ++ [{ FileInfo := file, path := join path file.name }] }, none)

/-- One round of the loop of `filepath.Clean` on Unix, on the elements kept so far and the
next element of the path: an empty element and `.` are dropped; `..` removes the element
before it, is dropped at the root of a rooted path, and is kept when only `..` elements
precede it in a path that is not rooted; any other element is kept. -/
def cleanStep (rooted : Bool) (out : List Str) (e : Str) : List Str :=
  if e = [] ∨ e = ascii "." then out
  else if e = ascii ".." then
    match out.getLast? with
    | some top => if top = ascii ".." then out ++ [e] else out.dropLast
    | none => if rooted then out else out ++ [e]
  else out ++ [e]

/-- The function `filepath.Clean` on Unix (separator `/`): the elements of the path that
the loop keeps, joined by single slashes, behind a slash when the path is rooted; `.` when
nothing is left of a path that is not rooted. -/
def CleanUnix (path : Str) : Str :=
  let rooted := path.head? == some slash
  let out := (Split path [slash]).foldl (cleanStep rooted) []
  if rooted then slash :: [slash].intercalate out
  else if out = [] then ascii "." else [slash].intercalate out

/-- The function `filepath.Join(dir, name)` on Unix: the elements from the first non-empty
one on, joined by a slash, are cleaned; the result is empty when both are empty. -/
def JoinUnix (dir name : Str) : Str :=
  if dir ≠ [] then CleanUnix (dir ++ slash :: name)
  else if name ≠ [] then CleanUnix name
  else []

/-- Metadata of a file whose name is `.`. -/
def dotInfo : OsFileInfo := { name := ascii ".", isDir := false, data := 0 }

/-- The branch `x/d/f1` of `twoBranchTree`, as an entry of the base directory. -/
def xEntry : DirEntry :=
  .dir (ascii "x") (.ok [.dir (ascii "d") (.ok [.file (ascii "f1") (.ok f1Info)])])

/-- The branch `y/d/f2` of `twoBranchTree`, as an entry of the base directory. -/
def yEntry : DirEntry :=
  .dir (ascii "y") (.ok [.dir (ascii "d") (.ok [.file (ascii "f2") (.ok f2Info)])])

/-- The state of the walk of `twoBranchTree` below `C:\r` with limit 2 when the loop over
the base directory starts: the base directory has been visited (poll 0). -/
def walkAtX : Walk := { s := freshStateC, polls := 1, log := [] }

/-! ## Facts about the string functions -/

theorem Index_eq_none_iff (s substr : Str) : Index s substr = none ↔ ¬ substr <:+: s := by
  induction s with
  | nil =>
    by_cases h : substr = []
    · simp [Index, h]
    · simp [Index, h]
  | cons c s ih =>
    unfold Index
    by_cases hp : substr.isPrefixOf (c :: s) = true
    · rw [if_pos hp]
      have : substr <:+: c :: s := (List.isPrefixOf_iff_prefix.mp hp).isInfix
      simp [this]
    · rw [if_neg hp]
      have hp2 : ¬ substr <+: c :: s := fun h => hp (List.isPrefixOf_iff_prefix.mpr h)
      rw [Option.map_eq_none', ih, List.infix_cons_iff]
      tauto

theorem Index_at_start {s substr : Str} (h : substr <+: s) : Index s substr = some 0 := by
  cases s with
  | nil =>
    have : substr = [] := List.prefix_nil.mp h
    simp [Index, this]
  | cons c s =>
    unfold Index
    rw [if_pos (List.isPrefixOf_iff_prefix.mpr h)]

theorem genSplitLoop_ne_nil (sep : Str) (fuel : Nat) (s : Str) : genSplitLoop sep fuel s ≠ [] := by
  cases fuel with
  | zero => simp [genSplitLoop]
  | succ n =>
    unfold genSplitLoop
    split <;> simp

theorem genSplitLoop_one_piece {sep s : Str} (fuel : Nat) (h : ¬ sep <:+: s) :
    genSplitLoop sep fuel s = [s] := by
  cases fuel with
  | zero => simp [genSplitLoop]
  | succ n =>
    unfold genSplitLoop
    rw [(Index_eq_none_iff s sep).mpr h]

theorem Split_base_append {base rest : Str} (hb : base ≠ []) (h : ¬ base <:+: rest) :
    Split (base ++ rest) base = [[], rest] := by
  obtain ⟨b, bs, rfl⟩ := List.exists_cons_of_ne_nil hb
  unfold Split
  rw [if_neg hb]
  simp only [List.cons_append, List.length_cons]
  unfold genSplitLoop
  have hp : (b :: bs) <+: (b :: (bs ++ rest)) := by
    rw [← List.cons_append]; exact List.prefix_append _ _
  rw [Index_at_start hp]
  have hd : List.drop (0 + (b :: bs).length) (b :: (bs ++ rest)) = rest := by
    simp
  dsimp only
  rw [hd, genSplitLoop_one_piece _ h, List.take_zero]

theorem Split_base_append_again {base rest : Str} (hb : base ≠ []) (h : base <:+: rest) :
    3 ≤ (Split (base ++ rest) base).length := by
  obtain ⟨b, bs, rfl⟩ := List.exists_cons_of_ne_nil hb
  have hlen : (b :: bs).length ≤ rest.length := h.length_le
  unfold Split
  rw [if_neg hb]
  simp only [List.cons_append, List.length_cons]
  unfold genSplitLoop
  have hp : (b :: bs) <+: (b :: (bs ++ rest)) := by
    rw [← List.cons_append]; exact List.prefix_append _ _
  rw [Index_at_start hp]
  have hd : List.drop (0 + (b :: bs).length) (b :: (bs ++ rest)) = rest := by
    simp
  dsimp only
  rw [hd, List.length_cons]
  obtain ⟨n, hn⟩ : ∃ n, (bs ++ rest).length = n + 1 := by
    refine ⟨(bs ++ rest).length - 1, ?_⟩
    simp only [List.length_append, List.length_cons] at hlen ⊢
    omega
  rw [hn]
  unfold genSplitLoop
  cases hi : Index rest (b :: bs) with
  | none => exact absurd h ((Index_eq_none_iff _ _).mp hi)
  | some m =>
    simp only [List.length_cons]
    have := List.length_pos.mpr (genSplitLoop_ne_nil (b :: bs) n (List.drop (m + (bs.length + 1)) rest))
    omega

theorem Index_single_none {c : Nat} {s : Str} (h : Index s [c] = none) : s.count c = 0 := by
  rw [Index_eq_none_iff] at h
  rw [List.count_eq_zero]
  intro hc
  obtain ⟨l1, l2, rfl⟩ := List.append_of_mem hc
  exact h ⟨l1, l2, by simp⟩

theorem Index_single_some {c : Nat} : ∀ {s : Str} {m : Nat}, Index s [c] = some m →
    m < s.length ∧ s.count c = (s.drop (m + 1)).count c + 1
  | [], m, h => by simp [Index] at h
  | x :: s, m, h => by
    unfold Index at h
    by_cases hx : x = c
    · subst hx
      have hp : [x].isPrefixOf (x :: s) = true := by simp [List.isPrefixOf]
      rw [if_pos hp] at h
      cases h
      simp
    · have hp : ¬ [c].isPrefixOf (x :: s) = true := by
        simp [List.isPrefixOf]; exact fun h => hx h.symm
      rw [if_neg hp] at h
      cases hi : Index s [c] with
      | none => simp [hi] at h
      | some k =>
        simp [hi] at h
        subst h
        obtain ⟨h1, h2⟩ := Index_single_some hi
        refine ⟨by simpa using h1, ?_⟩
        rw [List.count_cons_of_ne (Ne.symm hx)]
        simpa using h2

theorem genSplitLoop_single_length (c : Nat) : ∀ (fuel : Nat) (s : Str), s.length ≤ fuel →
    (genSplitLoop [c] fuel s).length = s.count c + 1
  | 0, s, h => by
    have : s = [] := List.length_eq_zero.mp (Nat.le_zero.mp h)
    subst this
    simp [genSplitLoop]
  | fuel + 1, s, h => by
    unfold genSplitLoop
    cases hi : Index s [c] with
    | none => simp [Index_single_none hi]
    | some m =>
      obtain ⟨h1, h2⟩ := Index_single_some hi
      simp only [List.length_cons, List.length_singleton]
      rw [genSplitLoop_single_length c fuel _ (by simp only [List.length_drop]; omega), h2]
      simp

theorem Split_single_length (c : Nat) (s : Str) : (Split s [c]).length = s.count c + 1 := by
  unfold Split
  rw [if_neg (by simp)]
  exact genSplitLoop_single_length c _ s le_rfl


theorem Index_lt_length {sep : Str} (hsep : sep ≠ []) : ∀ {s : Str} {m : Nat},
    Index s sep = some m → m < s.length
  | [], m, h => by simp [Index, hsep] at h
  | c :: s, m, h => by
    unfold Index at h
    split at h
    · cases h; simp
    · cases hi : Index s sep with
      | none => simp [hi] at h
      | some k =>
        simp [hi] at h
        subst h
        simpa using Index_lt_length hsep hi

/-- The fuel `len(s)` is enough for the loop of `genSplit`: more fuel changes nothing. -/
theorem genSplitLoop_fuel (sep : Str) (hsep : sep ≠ []) : ∀ (fuel : Nat) (s : Str),
    s.length ≤ fuel → genSplitLoop sep (fuel + 1) s = genSplitLoop sep fuel s
  | 0, s, h => by
    have hs : s = [] := List.length_eq_zero.mp (Nat.le_zero.mp h)
    subst hs
    simp [genSplitLoop, Index, hsep]
  | fuel + 1, s, h => by
    rw [genSplitLoop, genSplitLoop]
    cases hi : Index s sep with
    | none => rfl
    | some m =>
      have hm := Index_lt_length hsep hi
      have hpos : 0 < sep.length := List.length_pos.mpr hsep
      simp only
      rw [genSplitLoop_fuel sep hsep fuel _ (by simp only [List.length_drop]; omega)]

theorem runeLen_pos : ∀ {s : Str}, s ≠ [] → 0 < runeLen s
  | [], h => absurd rfl h
  | s0 :: t, _ => by
    simp only [runeLen]
    repeat (any_goals (first | omega | split))

/-- The fuel `len(s)` is enough for the loop of `explode`: more fuel changes nothing. -/
theorem explodeLoop_fuel : ∀ (fuel : Nat) (s : Str),
    s.length ≤ fuel → explodeLoop (fuel + 1) s = explodeLoop fuel s
  | 0, s, h => by
    have hs : s = [] := List.length_eq_zero.mp (Nat.le_zero.mp h)
    subst hs
    simp [explodeLoop]
  | fuel + 1, s, h => by
    have e1 : explodeLoop (fuel + 1 + 1) s =
        if s = [] then [] else s.take (runeLen s) :: explodeLoop (fuel + 1) (s.drop (runeLen s)) :=
      rfl
    have e2 : explodeLoop (fuel + 1) s =
        if s = [] then [] else s.take (runeLen s) :: explodeLoop fuel (s.drop (runeLen s)) :=
      rfl
    rw [e1, e2]
    by_cases hs : s = []
    · rw [if_pos hs, if_pos hs]
    · rw [if_neg hs, if_neg hs]
      have hpos := runeLen_pos hs
      rw [explodeLoop_fuel fuel _ (by simp only [List.length_drop]; omega)]

/-! ## Facts about `canSearchDeeper` -/

theorem canSearchDeeper_eq (s : Search) (path : Str) :
    canSearchDeeper s path =
      canSearchDeeper { maxDeep := s.maxDeep, basePath := s.basePath, list := [] } path := rfl

theorem canSearchDeeper_append (s : Search) (rest : Str) (hb : s.basePath ≠ []) :
    canSearchDeeper s (s.basePath ++ rest) =
      (decide (¬ s.basePath <:+: rest) &&
        (decide (rest.length < 2) ||
          decide (((rest.count backslash + 1 : Nat) : Int) ≤ s.maxDeep))) := by
  unfold canSearchDeeper
  by_cases h : s.basePath <:+: rest
  · have h3 := Split_base_append_again hb h
    have : ((Split (s.basePath ++ rest) s.basePath).length == 2) = false := by
      rw [beq_eq_false_iff_ne]; omega
    simp [this, h]
  · simp only [Split_base_append hb h, Split_single_length]
    simp [h]

theorem canSearchDeeper_base (s : Search) (hb : s.basePath ≠ []) :
    canSearchDeeper s s.basePath = true := by
  have h := canSearchDeeper_append s [] hb
  rw [List.append_nil] at h
  rw [h]
  have : ¬ s.basePath <:+: [] := by
    rw [List.infix_nil]; exact hb
  simp [this]

/-! ## Facts about the walk -/

mutual
theorem readDir_frame (sep : Nat) (done : Nat → Bool) (path : Str) (listing : Listing)
    (w : Walk) :
    (readDir sep done path listing w).2.s.basePath = w.s.basePath ∧
      (readDir sep done path listing w).2.s.maxDeep = w.s.maxDeep ∧
      w.s.list <+: (readDir sep done path listing w).2.s.list := by
  cases listing with
  | error err =>
    unfold readDir
    split
    · exact ⟨rfl, rfl, List.prefix_refl _⟩
    · split <;> exact ⟨rfl, rfl, List.prefix_refl _⟩
  | ok entries =>
    unfold readDir
    split
    · exact ⟨rfl, rfl, List.prefix_refl _⟩
    · split
      · exact rangeLoop_frame sep done path entries _
      · exact ⟨rfl, rfl, List.prefix_refl _⟩
theorem rangeLoop_frame (sep : Nat) (done : Nat → Bool) (path : Str) (entries : List DirEntry)
    (w : Walk) :
    (rangeLoop sep done path entries w).2.s.basePath = w.s.basePath ∧
      (rangeLoop sep done path entries w).2.s.maxDeep = w.s.maxDeep ∧
      w.s.list <+: (rangeLoop sep done path entries w).2.s.list := by
  match entries with
  | [] => exact ⟨rfl, rfl, List.prefix_refl _⟩
  | .dir name listing :: rest =>
    have h1 := readDir_frame sep done (Join sep path name) listing w
    unfold rangeLoop
    rcases hr : readDir sep done (Join sep path name) listing w with ⟨_ | err, w1⟩
    · rw [hr] at h1
      have h2 := rangeLoop_frame sep done path rest w1
      exact ⟨h2.1.trans h1.1, h2.2.1.trans h1.2.1, h1.2.2.trans h2.2.2⟩
    · rw [hr] at h1
      have h2 := rangeLoop_frame sep done path rest { w1 with log := w1.log ++ [err] }
      exact ⟨h2.1.trans h1.1, h2.2.1.trans h1.2.1, h1.2.2.trans h2.2.2⟩
  | .file _ (.error err) :: rest =>
    unfold rangeLoop
    exact ⟨rfl, rfl, List.prefix_refl _⟩
  | .file _ (.ok fi) :: rest =>
    unfold rangeLoop
    have h2 := rangeLoop_frame sep done path rest { w with s := (AddFile sep w.s fi path).1 }
    refine ⟨h2.1, h2.2.1, List.IsPrefix.trans ?_ h2.2.2⟩
    exact List.prefix_append _ _
end

mutual
theorem readDir_flatten (sep : Nat) (done : Nat → Bool) (hd : ∀ n, done n = false) (path : Str)
    (listing : Listing) (hm : listing.metadataOk = true) (w : Walk) :
    (readDir sep done path listing w).2.s =
      { w.s with list := w.s.list ++
          flattenListing sep w.s.basePath w.s.maxDeep path listing } := by
  cases listing with
  | error err =>
    unfold readDir flattenListing
    rw [if_neg (by simp [hd])]
    split <;> simp
  | ok entries =>
    unfold readDir flattenListing
    rw [if_neg (by simp [hd]), ← canSearchDeeper_eq]
    split
    · exact (rangeLoop_flatten sep done hd path entries (by simpa [Listing.metadataOk] using hm) _).2
    · simp
theorem rangeLoop_flatten (sep : Nat) (done : Nat → Bool) (hd : ∀ n, done n = false) (path : Str)
    (entries : List DirEntry) (hm : entriesMetadataOk entries = true) (w : Walk) :
    (rangeLoop sep done path entries w).1 = none ∧
      (rangeLoop sep done path entries w).2.s =
        { w.s with list := w.s.list ++
            flattenEntries sep w.s.basePath w.s.maxDeep path entries } := by
  match entries with
  | [] => simp [rangeLoop, flattenEntries]
  | .dir name listing :: rest =>
    simp only [entriesMetadataOk, Bool.and_eq_true] at hm
    have h1 := readDir_flatten sep done hd (Join sep path name) listing hm.1 w
    unfold rangeLoop flattenEntries
    rcases hr : readDir sep done (Join sep path name) listing w with ⟨_ | err, w1⟩
    · rw [hr] at h1
      have h2 := rangeLoop_flatten sep done hd path rest hm.2 w1
      refine ⟨h2.1, ?_⟩
      rw [h2.2]
      simp only at h1
      rw [h1]
      simp
    · rw [hr] at h1
      have h2 := rangeLoop_flatten sep done hd path rest hm.2 { w1 with log := w1.log ++ [err] }
      refine ⟨h2.1, ?_⟩
      rw [h2.2]
      simp only at h1
      rw [h1]
      simp
  | .file _ (.error err) :: rest => simp [entriesMetadataOk] at hm
  | .file _ (.ok fi) :: rest =>
    simp only [entriesMetadataOk] at hm
    unfold rangeLoop flattenEntries
    have h2 := rangeLoop_flatten sep done hd path rest hm { w with s := (AddFile sep w.s fi path).1 }
    refine ⟨h2.1, ?_⟩
    have := h2.2
    simp only [AddFile] at this ⊢
    rw [this]
    simp
end


/-! ## The walk against the depth of files -/

mutual
theorem filesOfListing_depth (sep : Nat) (depth : Nat) (path : Str) (listing : Listing) :
    ∀ p ∈ filesOfListing sep depth path listing, depth ≤ p.1 := by
  cases listing with
  | error err => simp [filesOfListing]
  | ok entries =>
    unfold filesOfListing
    exact filesOfEntries_depth sep depth path entries
theorem filesOfEntries_depth (sep : Nat) (depth : Nat) (path : Str) (entries : List DirEntry) :
    ∀ p ∈ filesOfEntries sep depth path entries, depth ≤ p.1 := by
  match entries with
  | [] => simp [filesOfEntries]
  | .file _ (.ok fi) :: rest =>
    unfold filesOfEntries
    intro p hp
    rcases List.mem_cons.mp hp with h | h
    · rw [h]
    · exact filesOfEntries_depth sep depth path rest p h
  | .file _ (.error _) :: rest =>
    unfold filesOfEntries
    exact filesOfEntries_depth sep depth path rest
  | .dir name listing :: rest =>
    unfold filesOfEntries
    intro p hp
    rcases List.mem_append.mp hp with h | h
    · exact Nat.le_of_succ_le (filesOfListing_depth sep (depth + 1) _ listing p h)
    · exact filesOfEntries_depth sep depth path rest p h
end

theorem Join_plain {sep : Nat} {dir name : Str} (hd : dir ≠ []) (hl : dir.getLast? ≠ some sep)
    (hn : name ≠ []) : Join sep dir name = dir ++ sep :: name := by
  unfold Join
  rw [if_neg hd, if_neg hn, if_neg hl]

theorem getLast?_append_name {sep : Nat} {name : Str} (p : Str) (hn : name ≠ [])
    (hs : sep ∉ name) : (p ++ sep :: name).getLast? ≠ some sep := by
  intro h
  rw [List.getLast?_eq_some_iff] at h
  obtain ⟨ys, hys⟩ := h
  have h1 : (p ++ sep :: name).getLast (by simp) = sep := by
    simp [hys]
  have h2 : (p ++ sep :: name).getLast (by simp) = name.getLast hn := by
    rw [List.getLast_append_right (by simp), List.getLast_cons hn]
  exact hs (by rw [← h1, h2]; exact List.getLast_mem hn)

theorem withinDepth_false_of_deep {limit : Int} {d : Nat} (h1 : 1 ≤ d)
    (h2 : ¬ ((d + 1 : Nat) : Int) ≤ limit) (p : Nat × fileInfo) (hp : d + 1 ≤ p.1) :
    withinDepth limit p = false := by
  unfold withinDepth
  have ha : ¬ p.1 = 1 := by omega
  have hb : ¬ ((p.1 : Nat) : Int) ≤ limit := by
    intro h; apply h2; push_cast at h ⊢; omega
  simp [ha, hb]

mutual
theorem flattenListing_depth (base : Str) (limit : Int) (hb : base ≠ []) (rest : Str) (d : Nat)
    (hcount : rest.count backslash = d)
    (hshape : (rest = [] ∧ d = 0) ∨ (2 ≤ rest.length ∧ 1 ≤ d))
    (hlast : (base ++ rest).getLast? ≠ some backslash)
    (honce : ¬ base <:+: rest)
    (listing : Listing)
    (hvalid : ∀ n ∈ listing.names, ValidName backslash n)
    (hpaths : ∀ p ∈ dirPathsListing backslash (base ++ rest) listing,
      ¬ base <:+: p.drop base.length) :
    flattenListing backslash base limit (base ++ rest) listing =
      ((filesOfListing backslash (d + 1) (base ++ rest) listing).filter
        (withinDepth limit)).map Prod.snd := by
  cases listing with
  | error err => simp [flattenListing, filesOfListing]
  | ok entries =>
    unfold flattenListing filesOfListing
    have hc := canSearchDeeper_append { maxDeep := limit, basePath := base, list := [] } rest hb
    simp only at hc
    rw [hc, hcount]
    by_cases hperm : d = 0 ∨ ((d + 1 : Nat) : Int) ≤ limit
    · have hcond : (decide (¬ base <:+: rest) &&
          (decide (rest.length < 2) || decide (((d + 1 : Nat) : Int) ≤ limit))) = true := by
        rcases hperm with h0 | hle
        · rcases hshape with ⟨hr, _⟩ | ⟨_, h1⟩
          · subst hr
            simp [honce]
          · omega
        · have hle2 : (d : Int) + 1 ≤ limit := by push_cast at hle; exact hle
          simp [honce, hle2]
      rw [if_pos hcond]
      exact flattenEntries_depth base limit hb rest d hcount hshape hlast hperm entries
        (by simpa [Listing.names] using hvalid) (by simpa [dirPathsListing] using hpaths)
    · have hd1 : 1 ≤ d := by
        rcases Nat.eq_zero_or_pos d with h | h
        · exact absurd (Or.inl h) hperm
        · exact h
      have hlim : ¬ ((d + 1 : Nat) : Int) ≤ limit := fun h => hperm (Or.inr h)
      have hlen : ¬ rest.length < 2 := by
        rcases hshape with ⟨_, h0⟩ | ⟨h2, _⟩
        · omega
        · omega
      have hcond : ¬ (decide (¬ base <:+: rest) &&
          (decide (rest.length < 2) || decide (((d + 1 : Nat) : Int) ≤ limit))) = true := by
        have hlim2 : limit < (d : Int) + 1 := by push_cast at hlim; omega
        simp [hlen, hlim2]
      rw [if_neg hcond]
      have hnil : (filesOfEntries backslash (d + 1) (base ++ rest) entries).filter
          (withinDepth limit) = [] := by
        rw [List.filter_eq_nil_iff]
        intro p hp
        rw [withinDepth_false_of_deep hd1 hlim p (filesOfEntries_depth _ _ _ _ p hp)]
        simp
      rw [hnil]
      rfl
theorem flattenEntries_depth (base : Str) (limit : Int) (hb : base ≠ []) (rest : Str) (d : Nat)
    (hcount : rest.count backslash = d)
    (hshape : (rest = [] ∧ d = 0) ∨ (2 ≤ rest.length ∧ 1 ≤ d))
    (hlast : (base ++ rest).getLast? ≠ some backslash)
    (hperm : d = 0 ∨ ((d + 1 : Nat) : Int) ≤ limit)
    (entries : List DirEntry)
    (hvalid : ∀ n ∈ entriesNames entries, ValidName backslash n)
    (hpaths : ∀ p ∈ dirPathsEntries backslash (base ++ rest) entries,
      ¬ base <:+: p.drop base.length) :
    flattenEntries backslash base limit (base ++ rest) entries =
      ((filesOfEntries backslash (d + 1) (base ++ rest) entries).filter
        (withinDepth limit)).map Prod.snd := by
  match entries with
  | [] => simp [flattenEntries, filesOfEntries]
  | .file name (.ok fi) :: tail =>
    unfold flattenEntries filesOfEntries
    have hw : withinDepth limit
        (d + 1, { FileInfo := fi, path := Join backslash (base ++ rest) fi.name }) = true := by
      unfold withinDepth
      rcases hperm with h0 | hle
      · simp [h0]
      · have hle2 : (d : Int) + 1 ≤ limit := by push_cast at hle; exact hle
        simp [hle2]
    rw [List.filter_cons_of_pos hw, List.map_cons]
    rw [flattenEntries_depth base limit hb rest d hcount hshape hlast hperm tail
      (fun n hn => hvalid n (by simp [entriesNames, hn]))
      (by simpa [dirPathsEntries] using hpaths)]
  | .file name (.error err) :: tail =>
    unfold flattenEntries filesOfEntries
    exact flattenEntries_depth base limit hb rest d hcount hshape hlast hperm tail
      (fun n hn => hvalid n (by simp [entriesNames, hn]))
      (by simpa [dirPathsEntries] using hpaths)
  | .dir name listing :: tail =>
    have hname : ValidName backslash name := hvalid name (by simp [entriesNames])
    obtain ⟨hne, hsep, _, _⟩ := hname
    have hbr : base ++ rest ≠ [] := by simp [hb]
    have hjoin : Join backslash (base ++ rest) name = base ++ (rest ++ backslash :: name) := by
      rw [Join_plain hbr hlast hne, List.append_assoc]
    unfold flattenEntries filesOfEntries
    rw [hjoin, List.filter_append, List.map_append]
    have hpaths2 : ∀ p ∈ (base ++ (rest ++ backslash :: name)) ::
        (dirPathsListing backslash (base ++ (rest ++ backslash :: name)) listing ++
          dirPathsEntries backslash (base ++ rest) tail), ¬ base <:+: p.drop base.length := by
      intro p hp
      apply hpaths p
      unfold dirPathsEntries
      rw [hjoin]
      exact hp
    have honce2 : ¬ base <:+: rest ++ backslash :: name := by
      have := hpaths2 _ (List.mem_cons_self _ _)
      rwa [List.drop_left] at this
    have hcount2 : (rest ++ backslash :: name).count backslash = d + 1 := by
      rw [List.count_append, List.count_cons_self, List.count_eq_zero.mpr hsep, hcount]
    have hshape2 : (rest ++ backslash :: name = [] ∧ d + 1 = 0) ∨
        (2 ≤ (rest ++ backslash :: name).length ∧ 1 ≤ d + 1) := by
      right
      have := List.length_pos.mpr hne
      simp only [List.length_append, List.length_cons]
      omega
    have hlast2 : (base ++ (rest ++ backslash :: name)).getLast? ≠ some backslash := by
      rw [← List.append_assoc]
      exact getLast?_append_name _ hne hsep
    rw [flattenListing_depth base limit hb (rest ++ backslash :: name) (d + 1) hcount2 hshape2
      hlast2 honce2 listing
      (fun n hn => hvalid n (by simp [entriesNames, hn]))
      (fun p hp => hpaths2 p (by simp [hp]))]
    rw [flattenEntries_depth base limit hb rest d hcount hshape hlast hperm tail
      (fun n hn => hvalid n (by simp [entriesNames, hn]))
      (fun p hp => hpaths2 p (by simp [hp]))]
end

theorem readDir_fst_of_ok (sep : Nat) (done : Nat → Bool) (hd : ∀ n, done n = false)
    (path : Str) (entries : List DirEntry) (hm : entriesMetadataOk entries = true) (w : Walk) :
    (readDir sep done path (.ok entries) w).1 = none := by
  unfold readDir
  rw [if_neg (by simp [hd])]
  split
  · exact (rangeLoop_flatten sep done hd path entries hm _).1
  · rfl

theorem Start_flatten (sep : Nat) (done : Nat → Bool) (hd : ∀ n, done n = false)
    (root : Listing) (hm : root.metadataOk = true) (s : Search) :
    (Start sep done root s).2.s =
      { s with list := s.list ++ flattenListing sep s.basePath s.maxDeep s.basePath root } :=
  readDir_flatten sep done hd s.basePath root hm _

theorem flattenListing_base (base : Str) (limit : Int) (hb : base ≠ [])
    (hlast : base.getLast? ≠ some backslash) (root : Listing)
    (hvalid : ValidTree backslash root) (honce : BaseOnce backslash base root) :
    flattenListing backslash base limit base root =
      ((filesOfListing backslash 1 base root).filter (withinDepth limit)).map Prod.snd := by
  have h := flattenListing_depth base limit hb [] 0 rfl (Or.inl ⟨rfl, rfl⟩)
    (by rwa [List.append_nil]) (by rw [List.infix_nil]; exact hb) root hvalid
    (by rw [List.append_nil]; exact honce)
  rwa [List.append_nil] at h

theorem InitSearch_ok {stat : Str → Except Error OsFileInfo} {abs : Str → Except Error Str}
    {path : Str} {s : Search} (h : InitSearch stat abs path = .ok s) :
    path ≠ [] ∧ abs path = .ok s.basePath ∧ s.maxDeep = 2 ∧ s.list = [] := by
  unfold InitSearch at h
  by_cases hp : path = []
  · rw [if_pos hp] at h; cases h
  · rw [if_neg hp] at h
    cases hs : stat path with
    | error err => rw [hs] at h; cases h
    | ok dir =>
      rw [hs] at h
      by_cases hd : (!dir.isDir) = true
      · simp only [hd, if_true] at h; cases h
      · simp only [hd] at h
        cases ha : abs path with
        | error err => rw [ha] at h; simp at h
        | ok absPath =>
          rw [ha] at h
          simp only [Bool.false_eq_true, if_false, Except.ok.injEq] at h
          subst h
          exact ⟨hp, rfl, rfl, rfl⟩

/-! ## Facts about `Find` -/

theorem Contains_iff_occurs (s substr : Str) : Contains s substr = true ↔ substr <:+: s := by
  unfold Contains
  rw [Option.isSome_iff_ne_none, Ne, Index_eq_none_iff, not_not]

theorem foldl_append_if {α : Type} (p : α → Bool) (l : List α) (init : List α) :
    l.foldl (fun acc x => if p x then acc ++ [x] else acc) init = init ++ l.filter p := by
  induction l generalizing init with
  | nil => simp
  | cons x xs ih =>
    rw [List.foldl_cons, ih]
    by_cases hx : p x = true
    · simp [hx]
    · simp [hx]

theorem Find_eq_filter (s : Search) (substr : Str) :
    Find s substr = s.List.filter (fun fi => Contains fi.Name substr) := by
  unfold Find HasMatch
  have h := foldl_append_if (fun fi : fileInfo => Contains fi.Name substr) s.List []
  simp only [List.nil_append] at h
  exact h

/-! ## Errors and the deadline during the walk -/

theorem readDir_done (sep : Nat) (done : Nat → Bool) (path : Str) (listing : Listing)
    (w : Walk) (h : done w.polls = true) :
    readDir sep done path listing w = (none, { w with polls := w.polls + 1 }) := by
  cases listing <;> (unfold readDir; rw [if_pos h])

theorem rangeLoop_top_ok (sep : Nat) (done : Nat → Bool) (path : Str) :
    ∀ (entries : List DirEntry) (w : Walk), topMetadataOk entries = true →
      (rangeLoop sep done path entries w).1 = none
  | [], w, _ => by simp [rangeLoop]
  | .dir name listing :: rest, w, h => by
    unfold rangeLoop
    rcases readDir sep done (Join sep path name) listing w with ⟨_ | err, w1⟩
    · exact rangeLoop_top_ok sep done path rest _ (by simpa [topMetadataOk] using h)
    · exact rangeLoop_top_ok sep done path rest _ (by simpa [topMetadataOk] using h)
  | .file _ (.error err) :: rest, w, h => by simp [topMetadataOk] at h
  | .file _ (.ok fi) :: rest, w, h => by
    unfold rangeLoop
    exact rangeLoop_top_ok sep done path rest _ (by simpa [topMetadataOk] using h)

theorem rangeLoop_append (sep : Nat) (done : Nat → Bool) (path : Str) (post : List DirEntry) :
    ∀ (pre : List DirEntry) (w : Walk), topMetadataOk pre = true →
      rangeLoop sep done path (pre ++ post) w =
        rangeLoop sep done path post (rangeLoop sep done path pre w).2
  | [], w, _ => by simp [rangeLoop]
  | .dir name listing :: rest, w, h => by
    simp only [List.cons_append, rangeLoop]
    rcases readDir sep done (Join sep path name) listing w with ⟨_ | err, w1⟩
    · exact rangeLoop_append sep done path post rest _ (by simpa [topMetadataOk] using h)
    · exact rangeLoop_append sep done path post rest _ (by simpa [topMetadataOk] using h)
  | .file _ (.error err) :: rest, w, h => by simp [topMetadataOk] at h
  | .file _ (.ok fi) :: rest, w, h => by
    simp only [List.cons_append, rangeLoop, AddFile]
    exact rangeLoop_append sep done path post rest _ (by simpa [topMetadataOk] using h)

theorem rangeLoop_after_deadline (sep : Nat) (done : Nat → Bool)
    (hmono : ∀ m n, m ≤ n → done m = true → done n = true) (path : Str) :
    ∀ (entries : List DirEntry) (w : Walk), done w.polls = true →
      topMetadataOk entries = true →
      (rangeLoop sep done path entries w).2.s =
        { w.s with list := w.s.list ++ directFiles sep path entries }
  | [], w, _, _ => by simp [rangeLoop, directFiles]
  | .dir name listing :: rest, w, hd, h => by
    unfold rangeLoop directFiles
    rw [readDir_done sep done _ listing w hd]
    exact rangeLoop_after_deadline sep done hmono path rest _
      (hmono _ _ (Nat.le_succ _) hd) (by simpa [topMetadataOk] using h)
  | .file _ (.error err) :: rest, w, _, h => by simp [topMetadataOk] at h
  | .file _ (.ok fi) :: rest, w, hd, h => by
    unfold rangeLoop directFiles
    have := rangeLoop_after_deadline sep done hmono path rest
      { w with s := (AddFile sep w.s fi path).1 } hd (by simpa [topMetadataOk] using h)
    simp only [AddFile] at this ⊢
    rw [this]
    simp

theorem flattenEntries_append (sep : Nat) (base : Str) (limit : Int) (path : Str)
    (post : List DirEntry) : ∀ pre : List DirEntry,
      flattenEntries sep base limit path (pre ++ post) =
        flattenEntries sep base limit path pre ++ flattenEntries sep base limit path post
  | [] => by simp [flattenEntries]
  | .dir name listing :: rest => by
    simp only [List.cons_append, flattenEntries, List.append_eq]
    rw [flattenEntries_append sep base limit path post rest, List.append_assoc]
  | .file _ (.error err) :: rest => by
    simp only [List.cons_append, flattenEntries, List.append_eq]
    exact flattenEntries_append sep base limit path post rest
  | .file _ (.ok fi) :: rest => by
    simp only [List.cons_append, flattenEntries, List.append_eq]
    rw [flattenEntries_append sep base limit path post rest]

mutual
theorem readDir_partial (sep : Nat) (done : Nat → Bool) (path : Str) (listing : Listing)
    (w : Walk) :
    ∃ added, (readDir sep done path listing w).2.s.list = w.s.list ++ added ∧
      added.Sublist (flattenListing sep w.s.basePath w.s.maxDeep path listing) := by
  cases listing with
  | error err =>
    refine ⟨[], ?_, List.nil_sublist _⟩
    unfold readDir
    split
    · simp
    · split <;> simp
  | ok entries =>
    unfold readDir flattenListing
    rw [← canSearchDeeper_eq]
    split
    · exact ⟨[], by simp, List.nil_sublist _⟩
    · split
      · exact rangeLoop_partial sep done path entries _
      · exact ⟨[], by simp, List.nil_sublist _⟩
theorem rangeLoop_partial (sep : Nat) (done : Nat → Bool) (path : Str)
    (entries : List DirEntry) (w : Walk) :
    ∃ added, (rangeLoop sep done path entries w).2.s.list = w.s.list ++ added ∧
      added.Sublist (flattenEntries sep w.s.basePath w.s.maxDeep path entries) := by
  match entries with
  | [] => exact ⟨[], by simp [rangeLoop], List.nil_sublist _⟩
  | .dir name listing :: rest =>
    obtain ⟨a1, h1, hs1⟩ := readDir_partial sep done (Join sep path name) listing w
    have hf := readDir_frame sep done (Join sep path name) listing w
    unfold rangeLoop flattenEntries
    rcases hr : readDir sep done (Join sep path name) listing w with ⟨_ | err, w1⟩
    · rw [hr] at h1 hf
      obtain ⟨a2, h2, hs2⟩ := rangeLoop_partial sep done path rest w1
      simp only at h1 hf
      rw [hf.1, hf.2.1] at hs2
      exact ⟨a1 ++ a2, by rw [h2, h1, List.append_assoc], hs1.append hs2⟩
    · rw [hr] at h1 hf
      obtain ⟨a2, h2, hs2⟩ :=
        rangeLoop_partial sep done path rest { w1 with log := w1.log ++ [err] }
      simp only at h1 hf h2 hs2
      rw [hf.1, hf.2.1] at hs2
      exact ⟨a1 ++ a2, by simp only; rw [h2, h1, List.append_assoc], hs1.append hs2⟩
  | .file _ (.error err) :: rest =>
    unfold rangeLoop
    exact ⟨[], by simp, List.nil_sublist _⟩
  | .file _ (.ok fi) :: rest =>
    unfold rangeLoop flattenEntries
    obtain ⟨a2, h2, hs2⟩ :=
      rangeLoop_partial sep done path rest { w with s := (AddFile sep w.s fi path).1 }
    simp only [AddFile] at h2 hs2 ⊢
    exact ⟨_ :: a2, by rw [h2]; simp, hs2.cons₂ _⟩
end

theorem topMetadataOk_of_entriesMetadataOk :
    ∀ entries : List DirEntry, entriesMetadataOk entries = true → topMetadataOk entries = true
  | [], _ => rfl
  | .dir _ _ :: rest, h => by
    simp only [entriesMetadataOk, Bool.and_eq_true] at h
    simpa [topMetadataOk] using topMetadataOk_of_entriesMetadataOk rest h.2
  | .file _ (.error _) :: _, h => by simp [entriesMetadataOk] at h
  | .file _ (.ok _) :: rest, h => by
    simp only [entriesMetadataOk] at h
    simpa [topMetadataOk] using topMetadataOk_of_entriesMetadataOk rest h

theorem Start_ok_eq (sep : Nat) (done : Nat → Bool) (s : Search) (entries : List DirEntry)
    (hb : s.basePath ≠ []) (h0 : done 0 = false) :
    Start sep done (.ok entries) s =
      rangeLoop sep done s.basePath entries { s := s, polls := 1, log := [] } := by
  unfold Start readDir
  rw [if_neg (by simp [h0]), if_pos (canSearchDeeper_base s hb)]

theorem Start_top_ok (sep : Nat) (done : Nat → Bool) (s : Search) (entries : List DirEntry)
    (h : topMetadataOk entries = true) : (Start sep done (.ok entries) s).1 = none := by
  unfold Start readDir
  split
  · rfl
  · split
    · exact rangeLoop_top_ok sep done s.basePath entries _ h
    · rfl

/-! ## A walk cut short by the deadline against the complete walk -/

theorem rangeLoop_dir_step (sep : Nat) (done : Nat → Bool) (path name : Str)
    (listing : Listing) (rest : List DirEntry) (w : Walk) :
    ∃ lg, rangeLoop sep done path (.dir name listing :: rest) w =
      rangeLoop sep done path rest
        { s := (readDir sep done (Join sep path name) listing w).2.s,
          polls := (readDir sep done (Join sep path name) listing w).2.polls, log := lg } := by
  simp only [rangeLoop]
  rcases readDir sep done (Join sep path name) listing w with ⟨_ | err, w1⟩
  · exact ⟨w1.log, rfl⟩
  · exact ⟨w1.log ++ [err], rfl⟩

theorem canSearchDeeper_congr {s s' : Search} (path : Str) (hb : s.basePath = s'.basePath)
    (hm : s.maxDeep = s'.maxDeep) : canSearchDeeper s path = canSearchDeeper s' path := by
  unfold canSearchDeeper
  rw [hb, hm]

mutual
theorem readDir_within_complete (sep : Nat) (done : Nat → Bool) (path : Str)
    (listing : Listing) (w w' : Walk) (hb : w.s.basePath = w'.s.basePath)
    (hm : w.s.maxDeep = w'.s.maxDeep) :
    ∃ added complete,
      (readDir sep done path listing w).2.s.list = w.s.list ++ added ∧
        (readDir sep never path listing w').2.s.list = w'.s.list ++ complete ∧
        added.Sublist complete := by
  by_cases hd : done w.polls = true
  · obtain ⟨complete, hc, _⟩ := readDir_partial sep never path listing w'
    refine ⟨[], complete, ?_, hc, List.nil_sublist _⟩
    rw [readDir_done sep done path listing w hd]
    simp
  · have hcs := canSearchDeeper_congr path hb hm
    have hn : ¬ never w'.polls = true := by simp [never]
    cases listing with
    | error err =>
      refine ⟨[], [], ?_, ?_, List.Sublist.refl _⟩
      · unfold readDir
        rw [if_neg hd]
        split <;> simp
      · unfold readDir
        rw [if_neg hn]
        split <;> simp
    | ok entries =>
      by_cases hc : canSearchDeeper w.s path = true
      · have hc' : canSearchDeeper w'.s path = true := by rw [← hcs]; exact hc
        obtain ⟨a, c, h1, h2, h3⟩ := rangeLoop_within_complete sep done path entries
          { w with polls := w.polls + 1 } { w' with polls := w'.polls + 1 } hb hm
        refine ⟨a, c, ?_, ?_, h3⟩
        · simp only [readDir, if_neg hd, hc, if_true]
          exact h1
        · simp only [readDir, if_neg hn, hc', if_true]
          exact h2
      · have hc' : ¬ canSearchDeeper w'.s path = true := by rw [← hcs]; exact hc
        refine ⟨[], [], ?_, ?_, List.Sublist.refl _⟩
        · simp [readDir, hd, hc]
        · simp [readDir, hn, hc']
theorem rangeLoop_within_complete (sep : Nat) (done : Nat → Bool) (path : Str)
    (entries : List DirEntry) (w w' : Walk) (hb : w.s.basePath = w'.s.basePath)
    (hm : w.s.maxDeep = w'.s.maxDeep) :
    ∃ added complete,
      (rangeLoop sep done path entries w).2.s.list = w.s.list ++ added ∧
        (rangeLoop sep never path entries w').2.s.list = w'.s.list ++ complete ∧
        added.Sublist complete := by
  match entries with
  | [] => exact ⟨[], [], by simp [rangeLoop], by simp [rangeLoop], List.Sublist.refl _⟩
  | .dir name listing :: rest =>
    obtain ⟨a1, c1, h1, h2, h3⟩ :=
      readDir_within_complete sep done (Join sep path name) listing w w' hb hm
    have hf := readDir_frame sep done (Join sep path name) listing w
    have hf' := readDir_frame sep never (Join sep path name) listing w'
    obtain ⟨lg, hs⟩ := rangeLoop_dir_step sep done path name listing rest w
    obtain ⟨lg', hs'⟩ := rangeLoop_dir_step sep never path name listing rest w'
    obtain ⟨a2, c2, k1, k2, k3⟩ := rangeLoop_within_complete sep done path rest
      { s := (readDir sep done (Join sep path name) listing w).2.s,
        polls := (readDir sep done (Join sep path name) listing w).2.polls, log := lg }
      { s := (readDir sep never (Join sep path name) listing w').2.s,
        polls := (readDir sep never (Join sep path name) listing w').2.polls, log := lg' }
      (by simp only; rw [hf.1, hf'.1, hb]) (by simp only; rw [hf.2.1, hf'.2.1, hm])
    refine ⟨a1 ++ a2, c1 ++ c2, ?_, ?_, h3.append k3⟩
    · rw [hs, k1]
      simp only
      rw [h1, List.append_assoc]
    · rw [hs', k2]
      simp only
      rw [h2, List.append_assoc]
  | .file _ (.error err) :: rest =>
    exact ⟨[], [], by simp [rangeLoop], by simp [rangeLoop], List.Sublist.refl _⟩
  | .file _ (.ok fi) :: rest =>
    obtain ⟨a2, c2, k1, k2, k3⟩ := rangeLoop_within_complete sep done path rest
      { w with s := (AddFile sep w.s fi path).1 } { w' with s := (AddFile sep w'.s fi path).1 }
      hb hm
    refine ⟨{ FileInfo := fi, path := Join sep path fi.name } :: a2,
      { FileInfo := fi, path := Join sep path fi.name } :: c2, ?_, ?_, k3.cons₂ _⟩
    · simp only [rangeLoop, AddFile] at k1 ⊢
      rw [k1]
      simp
    · simp only [rangeLoop, AddFile] at k2 ⊢
      rw [k2]
      simp
end

theorem afterFirst_mono : ∀ m n, m ≤ n → afterFirst m = true → afterFirst n = true := by
  intro m n hmn hm
  simp only [afterFirst, decide_eq_true_eq] at hm ⊢
  omega

theorem elapsed_mono : ∀ m n, m ≤ n → elapsed m = true → elapsed n = true :=
  fun _ _ _ _ => rfl

/-! ## The claims -/

/-- C1, as stated, fails. With the backslash as separator and depth limit 0, the file `f`
that lies one path segment below the base path `C:\r` is in `List()` although it does not
lie within 0 segments. With the slash as separator and depth limit 2, the file `a/b/c.js`
that lies three segments below the base path `/r` is in `List()`. With the backslash as
separator, depth limit 2 and the root `C:\` as base path, `a/b/c.js` (three segments below)
is in `List()` as well. -/
theorem C1_counterexample :
    ((Start backslash never oneFileTree
        { maxDeep := 0, basePath := ascii "C:\\r", list := [] }).2.s.List =
        [{ FileInfo := fInfo, path := ascii "C:\\r\\f" }] ∧
      filesOfListing backslash 1 (ascii "C:\\r") oneFileTree =
        [(1, { FileInfo := fInfo, path := ascii "C:\\r\\f" })] ∧
      ¬ ((1 : Nat) : Int) ≤ 0) ∧
    ((Start slash never jsTree
        { maxDeep := 2, basePath := ascii "/r", list := [] }).2.s.List =
        [{ FileInfo := cJs, path := ascii "/r/a/b/c.js" },
         { FileInfo := bJs, path := ascii "/r/a/b.js" }] ∧
      filesOfListing slash 1 (ascii "/r") jsTree =
        [(3, { FileInfo := cJs, path := ascii "/r/a/b/c.js" }),
         (2, { FileInfo := bJs, path := ascii "/r/a/b.js" })] ∧
      ¬ ((3 : Nat) : Int) ≤ 2) ∧
    ((Start backslash never jsTree
        { maxDeep := 2, basePath := ascii "C:\\", list := [] }).2.s.List =
        [{ FileInfo := cJs, path := ascii "C:\\a\\b\\c.js" },
         { FileInfo := bJs, path := ascii "C:\\a\\b.js" }] ∧
      filesOfListing backslash 1 (ascii "C:\\") jsTree =
        [(3, { FileInfo := cJs, path := ascii "C:\\a\\b\\c.js" }),
         (2, { FileInfo := bJs, path := ascii "C:\\a\\b.js" })]) := by
  decide

/-- C1, amended. Where the path separator is the backslash: for every valid directory
tree, every non-empty base path that does not end in a separator and does not occur a
second time in the path of a directory below it, and every depth limit `D`, when `Start()`
runs on a freshly constructed state with `maxDeep = D`, with no deadline expiry and no
listing or metadata failure, it returns no error and `List()` holds, in walk order, exactly
the files that lie directly in the base directory or within `D` path segments below the
base path: a file is in `List()` if and only if its depth is 1 or at most `D`. -/
theorem C1_start_lists_files_within_depth (sep : Nat) (done : Nat → Bool) (base : Str)
    (D : Int) (root : Listing)
    (hsep : sep = backslash) (hb : base ≠ []) (hlast : base.getLast? ≠ some sep)
    (hvalid : ValidTree sep root) (honce : BaseOnce sep base root)
    (hlist : root.listingsOk = true) (hmeta : root.metadataOk = true)
    (hdone : ∀ n, done n = false) :
    (Start sep done root { maxDeep := D, basePath := base, list := [] }).1 = none ∧
      (Start sep done root { maxDeep := D, basePath := base, list := [] }).2.s.List =
        ((filesOfListing sep 1 base root).filter (withinDepth D)).map Prod.snd ∧
      ∀ r, r ∈ (Start sep done root { maxDeep := D, basePath := base, list := [] }).2.s.List ↔
        ∃ k, (k, r) ∈ filesOfListing sep 1 base root ∧ (k = 1 ∨ (k : Int) ≤ D) := by
  subst hsep
  have hl : (Start backslash done root { maxDeep := D, basePath := base, list := [] }).2.s.List =
      ((filesOfListing backslash 1 base root).filter (withinDepth D)).map Prod.snd := by
    unfold Search.List
    rw [Start_flatten backslash done hdone root hmeta]
    simp only [List.nil_append]
    exact flattenListing_base base D hb hlast root hvalid honce
  refine ⟨?_, hl, ?_⟩
  · cases root with
    | error err => simp [Listing.listingsOk] at hlist
    | ok entries =>
      exact readDir_fst_of_ok backslash done hdone base entries
        (by simpa [Listing.metadataOk] using hmeta) _
  · intro r
    rw [hl]
    simp only [List.mem_map, List.mem_filter, withinDepth, Bool.or_eq_true, decide_eq_true_eq]
    constructor
    · rintro ⟨⟨k, r2⟩, ⟨hmem, hk⟩, rfl⟩
      exact ⟨k, hmem, hk⟩
    · rintro ⟨k, hmem, hk⟩
      exact ⟨(k, r), ⟨hmem, hk⟩, rfl⟩

/-- Witness for C1: the scenario tree below `C:\r` with depth limit 2. -/
theorem C1_start_lists_files_within_depth_witness :
    (Start backslash never jsTree
        { maxDeep := 2, basePath := ascii "C:\\r", list := [] }).1 = none ∧
      (Start backslash never jsTree
        { maxDeep := 2, basePath := ascii "C:\\r", list := [] }).2.s.List =
        ((filesOfListing backslash 1 (ascii "C:\\r") jsTree).filter (withinDepth 2)).map
          Prod.snd :=
  have h := C1_start_lists_files_within_depth backslash never (ascii "C:\\r") 2 jsTree rfl
    (by decide) (by decide) (by decide) (by decide) (by decide) (by decide) (fun _ => rfl)
  ⟨h.1, h.2.1⟩

/-- C2, as stated, fails. The directory `/a/a` lies below the base path `/a` and the
portion beyond the base path, `/a`, has one segment (two separator-delimited pieces), at
most `maxDeep = 2`, yet `canSearchDeeper` is false. The directory `C:\a` lies below the
base path `C:\`, the portion beyond the base path, `a`, is not empty and has one segment,
more than `maxDeep = 0`, yet `canSearchDeeper` is true. With the slash as separator the
directory `/r/a/b/c` has three segments beyond the base path `/r` (four pieces), more than
`maxDeep = 2`, yet `canSearchDeeper` is true. -/
theorem C2_counterexample :
    (canSearchDeeper { maxDeep := 2, basePath := ascii "/a", list := [] }
        (ascii "/a" ++ ascii "/a") = false ∧
      ((segments slash (ascii "/a")).length : Int) ≤ 2 ∧
      ((Split (ascii "/a") [slash]).length : Int) ≤ 2) ∧
    (canSearchDeeper { maxDeep := 0, basePath := ascii "C:\\", list := [] }
        (ascii "C:\\" ++ ascii "a") = true ∧
      ascii "a" ≠ [] ∧
      ¬ ((segments backslash (ascii "a")).length : Int) ≤ 0 ∧
      ¬ ((Split (ascii "a") [backslash]).length : Int) ≤ 0) ∧
    (canSearchDeeper { maxDeep := 2, basePath := ascii "/r", list := [] }
        (ascii "/r" ++ ascii "/a/b/c") = true ∧
      ascii "/a/b/c" ≠ [] ∧
      ¬ ((segments slash (ascii "/a/b/c")).length : Int) ≤ 2 ∧
      ¬ ((Split (ascii "/a/b/c") [slash]).length : Int) ≤ 2) := by
  decide

/-- C2, amended. Where the path separator is the backslash: for every non-empty base path,
every `maxDeep` and every path that is the base path followed by a remainder in which the
base path does not occur again, `canSearchDeeper(path)` is true if and only if the
remainder is shorter than two bytes (it is empty for the top-level directory) or the number
of pieces into which the separators cut the remainder is at most `maxDeep`; that number is
one more than the number of separators in the remainder. -/
theorem C2_canSearchDeeper_iff (sep : Nat) (s : Search) (rest : Str)
    (hsep : sep = backslash) (hb : s.basePath ≠ []) (honce : ¬ s.basePath <:+: rest) :
    (canSearchDeeper s (s.basePath ++ rest) = true ↔
        rest.length < 2 ∨ ((Split rest [sep]).length : Int) ≤ s.maxDeep) ∧
      (Split rest [sep]).length = rest.count sep + 1 := by
  subst hsep
  refine ⟨?_, Split_single_length backslash rest⟩
  rw [canSearchDeeper_append s rest hb, Split_single_length]
  simp [honce]

/-- Witness for C2: the directory `C:\r\a\b` below the base path `C:\r` with limit 2. -/
theorem C2_canSearchDeeper_iff_witness :
    (canSearchDeeper { maxDeep := 2, basePath := ascii "C:\\r", list := [] }
        (ascii "C:\\r" ++ ascii "\\a\\b") = true ↔
        (ascii "\\a\\b").length < 2 ∨
          ((Split (ascii "\\a\\b") [backslash]).length : Int) ≤ 2) ∧
      (Split (ascii "\\a\\b") [backslash]).length = (ascii "\\a\\b").count backslash + 1 :=
  C2_canSearchDeeper_iff backslash { maxDeep := 2, basePath := ascii "C:\\r", list := [] }
    (ascii "\\a\\b") rfl (by decide) (by decide)

/-- C3, as stated, fails. With the backslash as separator and the base path `C:\r`, after
construction, `Start()`, `IncreaseDeep()` and `Start()` again, `Find("js")` returns three
records, not two: `b.js` of the first walk, then `c.js` and `b.js` of the second. With the
slash as separator and the base path `/r`, `c.js` is in `List()` already after the first
`Start()` with `maxDeep = 2`. -/
theorem C3_counterexample :
    Find (Start backslash never jsTree (IncreaseDeep (Start backslash never jsTree
        { maxDeep := 2, basePath := ascii "C:\\r", list := [] }).2.s)).2.s (ascii "js") =
      [{ FileInfo := bJs, path := ascii "C:\\r\\a\\b.js" },
       { FileInfo := cJs, path := ascii "C:\\r\\a\\b\\c.js" },
       { FileInfo := bJs, path := ascii "C:\\r\\a\\b.js" }] ∧
    (Start slash never jsTree { maxDeep := 2, basePath := ascii "/r", list := [] }).2.s.List =
      [{ FileInfo := cJs, path := ascii "/r/a/b/c.js" },
       { FileInfo := bJs, path := ascii "/r/a/b.js" }] := by
  decide

/-- C3, amended. Where the path separator is the backslash, for a base directory that
contains exactly the files `a/b.js` and `a/b/c.js` and whose path (non-empty, not ending
in a separator) does not occur again in the paths of `a` and `a/b`: after construction
(`maxDeep = 2`) and `Start()`, `List()` is exactly the record of `b.js`, so it contains
`b.js` and not `c.js`; after then calling `IncreaseDeep()` (`maxDeep = 4`) and `Start()`
again on the same state, `List()` is `b.js` of the first walk followed by `c.js` and `b.js`
of the second, so both are in `List()` and `Find("js")` returns those three records (length
3); on a freshly constructed state raised to `maxDeep = 4` before its only `Start()`,
`Find("js")` returns exactly the two records of `c.js` and `b.js`. -/
theorem C3_scenario (sep : Nat) (stat : Str → Except Error OsFileInfo)
    (abs : Str → Except Error Str) (path : Str) (s0 : Search)
    (hsep : sep = backslash) (hinit : InitSearch stat abs path = .ok s0)
    (hb : s0.basePath ≠ []) (hlast : s0.basePath.getLast? ≠ some sep)
    (honce : BaseOnce sep s0.basePath jsTree) :
    s0.maxDeep = 2 ∧
      (Start sep never jsTree s0).1 = none ∧
      (Start sep never jsTree s0).2.s.List = [bJsRecord sep s0.basePath] ∧
      (IncreaseDeep (Start sep never jsTree s0).2.s).maxDeep = 4 ∧
      (Start sep never jsTree (IncreaseDeep (Start sep never jsTree s0).2.s)).1 = none ∧
      (Start sep never jsTree (IncreaseDeep (Start sep never jsTree s0).2.s)).2.s.List =
        [bJsRecord sep s0.basePath, cJsRecord sep s0.basePath, bJsRecord sep s0.basePath] ∧
      Find (Start sep never jsTree (IncreaseDeep (Start sep never jsTree s0).2.s)).2.s
          (ascii "js") =
        [bJsRecord sep s0.basePath, cJsRecord sep s0.basePath, bJsRecord sep s0.basePath] ∧
      Find (Start sep never jsTree (IncreaseDeep s0)).2.s (ascii "js") =
        [cJsRecord sep s0.basePath, bJsRecord sep s0.basePath] := by
  subst hsep
  obtain ⟨_, _, hdeep, hnil⟩ := InitSearch_ok hinit
  obtain ⟨D, base, l⟩ := s0
  simp only at hdeep hnil hb hlast honce
  subst hdeep hnil
  have hn : ∀ n, never n = false := fun _ => rfl
  have hflat : ∀ limit : Int, flattenListing backslash base limit base jsTree =
      ((filesOfListing backslash 1 base jsTree).filter (withinDepth limit)).map Prod.snd :=
    fun limit => flattenListing_base base limit hb hlast jsTree (by decide) honce
  have hfiles : filesOfListing backslash 1 base jsTree =
      [(3, cJsRecord backslash base), (2, bJsRecord backslash base)] := by
    simp [jsTree, filesOfListing, filesOfEntries, cJsRecord, bJsRecord, cJs, bJs]
  have hflat2 : flattenListing backslash base 2 base jsTree = [bJsRecord backslash base] := by
    rw [hflat, hfiles]; simp [withinDepth]
  have hflat4 : flattenListing backslash base 4 base jsTree =
      [cJsRecord backslash base, bJsRecord backslash base] := by
    rw [hflat, hfiles]; simp [withinDepth]
  have hnone : ∀ s : Search, (Start backslash never jsTree s).1 = none := fun s =>
    readDir_fst_of_ok backslash never hn s.basePath _ (by decide) _
  have hs1 : (Start backslash never jsTree { maxDeep := 2, basePath := base, list := [] }).2.s =
      { maxDeep := 2, basePath := base, list := [bJsRecord backslash base] } := by
    rw [Start_flatten backslash never hn jsTree (by decide)]
    simp [hflat2]
  have hinc : ∀ l : List fileInfo,
      IncreaseDeep { maxDeep := 2, basePath := base, list := l } =
        { maxDeep := 4, basePath := base, list := l } := by
    intro l; simp [IncreaseDeep]
  have hs2 : ∀ l : List fileInfo,
      (Start backslash never jsTree { maxDeep := 4, basePath := base, list := l }).2.s =
        { maxDeep := 4, basePath := base,
          list := l ++ [cJsRecord backslash base, bJsRecord backslash base] } := by
    intro l
    rw [Start_flatten backslash never hn jsTree (by decide)]
    simp [hflat4]
  have hmb : Contains (bJsRecord backslash base).Name (ascii "js") = true := by
    show Contains (ascii "b.js") (ascii "js") = true
    decide
  have hmc : Contains (cJsRecord backslash base).Name (ascii "js") = true := by
    show Contains (ascii "c.js") (ascii "js") = true
    decide
  refine ⟨rfl, hnone _, ?_, ?_, hnone _, ?_, ?_, ?_⟩
  · rw [hs1]; rfl
  · rw [hs1, hinc]
  · rw [hs1, hinc, hs2]; rfl
  · rw [hs1, hinc, hs2]
    simp [Find, Search.List, HasMatch, hmb, hmc]
  · rw [hinc, hs2]
    simp [Find, Search.List, HasMatch, hmb, hmc]

/-- Witness for C3: the base directory `C:\r`, constructed from the path `C:\r`. -/
theorem C3_scenario_witness :
    (Start backslash never jsTree
        { maxDeep := 2, basePath := ascii "C:\\r", list := [] }).2.s.List =
        [bJsRecord backslash (ascii "C:\\r")] ∧
      Find (Start backslash never jsTree (IncreaseDeep
          { maxDeep := 2, basePath := ascii "C:\\r", list := [] })).2.s (ascii "js") =
        [cJsRecord backslash (ascii "C:\\r"), bJsRecord backslash (ascii "C:\\r")] :=
  have h := C3_scenario backslash statDir absSame
    (ascii "C:\\r") { maxDeep := 2, basePath := ascii "C:\\r", list := [] } rfl rfl
    (by decide) (by decide) (by decide)
  ⟨h.2.2.1, h.2.2.2.2.2.2.2⟩

/-- C4. For every directory tree, when `Start()` runs without deadline expiry and without
listing or metadata failure, it returns no error and the records it appends to the results
are exactly the depth-first flattening of the permitted part of the tree in listing order
(`flattenListing`): the entries of a permitted directory are taken in the order the
listing yields them, a file contributes its record at its position, a subdirectory the
flattening of its subtree at its position. -/
theorem C4_start_appends_flattening (sep : Nat) (done : Nat → Bool) (root : Listing)
    (s : Search) (hdone : ∀ n, done n = false) (hlist : root.listingsOk = true)
    (hmeta : root.metadataOk = true) :
    (Start sep done root s).1 = none ∧
      (Start sep done root s).2.s.List =
        s.List ++ flattenListing sep s.basePath s.maxDeep s.basePath root := by
  constructor
  · cases root with
    | error err => simp [Listing.listingsOk] at hlist
    | ok entries =>
      exact readDir_fst_of_ok sep done hdone s.basePath entries
        (by simpa [Listing.metadataOk] using hmeta) _
  · unfold Search.List
    rw [Start_flatten sep done hdone root hmeta]

/-- Witness for C4: the scenario tree below `/r` with limit 2, after an earlier record. -/
theorem C4_start_appends_flattening_witness :
    (Start slash never jsTree
        { maxDeep := 2, basePath := ascii "/r", list := [bJsRecord slash (ascii "/r")] }).1 =
        none ∧
      (Start slash never jsTree
        { maxDeep := 2, basePath := ascii "/r",
          list := [bJsRecord slash (ascii "/r")] }).2.s.List =
        [bJsRecord slash (ascii "/r")] ++
          flattenListing slash (ascii "/r") 2 (ascii "/r") jsTree :=
  C4_start_appends_flattening slash never jsTree
    { maxDeep := 2, basePath := ascii "/r", list := [bJsRecord slash (ascii "/r")] }
    (fun _ => rfl) (by decide) (by decide)

/-- C5. For every state and every string `substr`, `Find(substr)` is `List()` filtered by
"the name of the record contains `substr` as a contiguous byte sequence" (literal, so
case-sensitive), in the order of `List()`: a record is returned exactly when it is an
element of `List()` whose name contains `substr`. -/
theorem C5_find_is_filter (s : Search) (substr : Str) :
    Find s substr = s.List.filter (fun fi => decide (substr <:+: fi.Name)) ∧
      (Find s substr).Sublist s.List ∧
      ∀ r, r ∈ Find s substr ↔ r ∈ s.List ∧ substr <:+: r.Name := by
  have h : Find s substr = s.List.filter (fun fi => decide (substr <:+: fi.Name)) := by
    rw [Find_eq_filter]
    congr 1
    funext fi
    rw [Bool.eq_iff_iff, Contains_iff_occurs]
    simp
  refine ⟨h, ?_, ?_⟩
  · rw [h]; exact List.filter_sublist _
  · intro r
    rw [h, List.mem_filter]
    simp

/-- C6. For every state, `Find("")` returns all elements of `List()`, in the same order
and with the same length. -/
theorem C6_find_empty_is_list (s : Search) :
    Find s [] = s.List ∧ (Find s []).length = s.List.length := by
  have h : Find s [] = s.List := by
    rw [Find_eq_filter, List.filter_eq_self]
    intro fi _
    rw [Contains_iff_occurs]
    exact List.nil_infix
  exact ⟨h, by rw [h]⟩

/-- C8. A directory-listing failure is fatal to `Start()` exactly when it occurs at the
base directory. If listing the base directory (non-empty base path, deadline not elapsed
at the first check) fails, `Start()` returns that error and the results are unchanged. If
the base directory is listed and no metadata read fails, `Start()` returns no error
whatever listings fail below; when the deadline does not elapse either, the results are
the previous results followed by the flattening of the tree, in which a directory whose
listing failed contributes nothing and the entries of its parent that follow it contribute
as usual. -/
theorem C8_listing_failure (sep : Nat) (done : Nat → Bool) (s : Search)
    (hb : s.basePath ≠ []) (h0 : done 0 = false) :
    (∀ err, Start sep done (.error err) s = (some err, { s := s, polls := 1, log := [] })) ∧
      (∀ entries, entriesMetadataOk entries = true →
        (Start sep done (.ok entries) s).1 = none ∧
          ((∀ n, done n = false) →
            (Start sep done (.ok entries) s).2.s.List =
              s.List ++ flattenEntries sep s.basePath s.maxDeep s.basePath entries)) ∧
      (∀ path pre name err post,
        flattenEntries sep s.basePath s.maxDeep path (pre ++ .dir name (.error err) :: post) =
          flattenEntries sep s.basePath s.maxDeep path pre ++
            flattenEntries sep s.basePath s.maxDeep path post) := by
  refine ⟨?_, ?_, ?_⟩
  · intro err
    unfold Start readDir
    rw [if_neg (by simp [h0]), if_pos (canSearchDeeper_base s hb)]
  · intro entries hm
    refine ⟨Start_top_ok sep done s entries (topMetadataOk_of_entriesMetadataOk entries hm), ?_⟩
    intro hd
    unfold Search.List
    rw [Start_flatten sep done hd (.ok entries) (by simpa [Listing.metadataOk] using hm)]
    simp only
    unfold flattenListing
    rw [← canSearchDeeper_eq, if_pos (canSearchDeeper_base s hb)]
  · intro path pre name err post
    rw [flattenEntries_append]
    simp only [flattenEntries, flattenListing, List.nil_append]

/-- Witness for C8: listing the base directory `C:\r` fails with error 7; listing its
subdirectory `a` fails with error 7 and the file `b.js` behind it is still collected. -/
theorem C8_listing_failure_witness :
    Start backslash never (.error (Error.sys 7))
        { maxDeep := 2, basePath := ascii "C:\\r", list := [] } =
      (some (Error.sys 7),
        { s := { maxDeep := 2, basePath := ascii "C:\\r", list := [] },
          polls := 1, log := [] }) ∧
      (Start backslash never (.ok badDirTree)
        { maxDeep := 2, basePath := ascii "C:\\r", list := [] }).1 = none ∧
      (Start backslash never (.ok badDirTree)
        { maxDeep := 2, basePath := ascii "C:\\r", list := [] }).2.s.List =
        [] ++ flattenEntries backslash (ascii "C:\\r") 2 (ascii "C:\\r") badDirTree :=
  have h := C8_listing_failure backslash never
    { maxDeep := 2, basePath := ascii "C:\\r", list := [] } (by decide) rfl
  ⟨h.1 (Error.sys 7), (h.2.1 badDirTree (by decide)).1,
    (h.2.1 badDirTree (by decide)).2 (fun _ => rfl)⟩

/-- C9, as stated, fails. With the deadline elapsing between the visit of the base
directory `C:\r` and the visit of its subdirectory `a`, no error occurs before that moment
(the log is empty), yet `Start()` returns an error: the loop over the entries of the base
directory goes on and reading the metadata of the file `f` fails. -/
theorem C9_counterexample :
    afterFirst 0 = false ∧ afterFirst 1 = true ∧
      (Start backslash afterFirst lateBadTree
        { maxDeep := 2, basePath := ascii "C:\\r", list := [] }).1 = some (Error.sys 5) ∧
      (Start backslash afterFirst lateBadTree
        { maxDeep := 2, basePath := ascii "C:\\r", list := [] }).2.log = [] ∧
      (Start backslash afterFirst lateBadTree
        { maxDeep := 2, basePath := ascii "C:\\r", list := [] }).2.polls = 2 := by
  decide

/-- C9, amended. Modelling the deadline as a flag that, once set, stays set: from the
moment the deadline has elapsed no further directory is listed, every later directory
visit returns immediately without error and without visiting its subtree. The loop over
the entries of a directory that is being listed goes on: when no metadata read fails for a
file listed directly in it, the loop returns no error and adds exactly the files listed
directly in that directory. A metadata failure on a file listed directly in the base
directory (non-empty base path, deadline not elapsed at the first poll, no file listed
before it failing) still aborts `Start()` with that error, whether or not the deadline has
elapsed in the meantime. When no metadata read fails for a file listed directly in the
base directory, `Start()` returns no error, whenever the deadline elapses, with the
results holding the previous results followed by a partial set: a sub-sequence of the
records that the complete walk, the one whose deadline never elapses, adds from the same
state. In particular, if the deadline has already elapsed when the base directory is
visited, `Start()` returns no error and the results are unchanged. -/
theorem C9_deadline (sep : Nat) (done : Nat → Bool)
    (hmono : ∀ m n, m ≤ n → done m = true → done n = true) :
    (∀ k path listing w, done k = true → k ≤ w.polls →
        readDir sep done path listing w = (none, { w with polls := w.polls + 1 })) ∧
      (∀ k path entries w, done k = true → k ≤ w.polls → topMetadataOk entries = true →
        (rangeLoop sep done path entries w).1 = none ∧
          (rangeLoop sep done path entries w).2.s =
            { w.s with list := w.s.list ++ directFiles sep path entries }) ∧
      (∀ s pre name err post, s.basePath ≠ [] → done 0 = false → topMetadataOk pre = true →
        Start sep done (.ok (pre ++ .file name (.error err) :: post)) s =
          (some err,
            (rangeLoop sep done s.basePath pre { s := s, polls := 1, log := [] }).2)) ∧
      (∀ s entries, topMetadataOk entries = true →
        (Start sep done (.ok entries) s).1 = none ∧
          ∃ added complete,
            (Start sep done (.ok entries) s).2.s.List = s.List ++ added ∧
              (Start sep never (.ok entries) s).2.s.List = s.List ++ complete ∧
              added.Sublist complete) ∧
      (∀ s root, done 0 = true →
        Start sep done root s = (none, { s := s, polls := 1, log := [] })) := by
  refine ⟨?_, ?_, ?_, ?_, ?_⟩
  · intro k path listing w hk hle
    exact readDir_done sep done path listing w (hmono k w.polls hle hk)
  · intro k path entries w hk hle htop
    exact ⟨rangeLoop_top_ok sep done path entries w htop,
      rangeLoop_after_deadline sep done hmono path entries w (hmono k w.polls hle hk) htop⟩
  · intro s pre name err post hb h0 hpre
    rw [Start_ok_eq sep done s _ hb h0, rangeLoop_append sep done s.basePath _ pre _ hpre]
    simp only [rangeLoop]
  · intro s entries htop
    exact ⟨Start_top_ok sep done s entries htop,
      readDir_within_complete sep done s.basePath (.ok entries)
        { s := s, polls := 0, log := [] } { s := s, polls := 0, log := [] } rfl rfl⟩
  · intro s root h
    exact readDir_done sep done s.basePath root { s := s, polls := 0, log := [] } h

/-- Witness for C9. The deadline elapses while the base directory `C:\r` is listed: the
file `f` behind the directory `a` still fails and aborts `Start()` with error 5, and the
walk of the scenario tree returns no error. The deadline has elapsed before the base
directory is visited: `Start()` returns no error and leaves the state unchanged. -/
theorem C9_deadline_witness :
    Start backslash afterFirst lateBadTree freshStateC =
        (some (Error.sys 5),
          (rangeLoop backslash afterFirst freshStateC.basePath [.dir (ascii "a") (.ok [])]
            { s := freshStateC, polls := 1, log := [] }).2) ∧
      (Start backslash afterFirst jsTree freshStateC).1 = none ∧
      Start backslash elapsed jsTree freshStateC =
        (none, { s := freshStateC, polls := 1, log := [] }) :=
  ⟨(C9_deadline backslash afterFirst afterFirst_mono).2.2.1 freshStateC
      [.dir (ascii "a") (.ok [])] (ascii "f") (Error.sys 5) [] (by decide) rfl rfl,
    ((C9_deadline backslash afterFirst afterFirst_mono).2.2.2.1 freshStateC
      [.dir (ascii "a") (.ok [.dir (ascii "b") (.ok [.file (ascii "c.js") (.ok cJs)]),
        .file (ascii "b.js") (.ok bJs)])] rfl).1,
    (C9_deadline backslash elapsed elapsed_mono).2.2.2.2 freshStateC jsTree rfl⟩

/-- C10, as stated, fails. The path `.` is not empty, it can be stat'ed and is a directory,
but resolving its absolute form fails with error 2 (the working directory is gone), and
`InitSearch` returns that error instead of a state. -/
theorem C10_counterexample :
    ascii "." ≠ [] ∧ statDir (ascii ".") = .ok { name := ascii "r", isDir := true, data := 0 } ∧
      InitSearch statDir absFails (ascii ".") = .error (Error.sys 2) :=
  ⟨by decide, rfl, rfl⟩

/-- C10, amended. `InitSearch(path)`, with `os.Stat` and `filepath.Abs` as oracles: it
fails with the empty-path error when `path` is the empty string, whatever `os.Stat` would
answer; it fails with the error of `os.Stat` when `path` is non-empty and cannot be
stat'ed; it fails with the not-a-directory error when `path` exists but is not a
directory; it fails with the error of `filepath.Abs` when `path` is a directory and its
absolute form cannot be resolved; otherwise it succeeds and returns a state whose
`basePath` is the absolute form of `path`, whose `maxDeep` is 2 and whose results are
empty. -/
theorem C10_InitSearch (stat : Str → Except Error OsFileInfo) (abs : Str → Except Error Str)
    (path : Str) :
    (path = [] → InitSearch stat abs path = .error (.text ErrorEmptyPath)) ∧
      (path ≠ [] → ∀ err, stat path = .error err → InitSearch stat abs path = .error err) ∧
      (path ≠ [] → ∀ dir, stat path = .ok dir → dir.isDir = false →
        InitSearch stat abs path = .error (.text ErrorWrongPath)) ∧
      (path ≠ [] → ∀ dir err, stat path = .ok dir → dir.isDir = true →
        abs path = .error err → InitSearch stat abs path = .error err) ∧
      (path ≠ [] → ∀ dir absPath, stat path = .ok dir → dir.isDir = true →
        abs path = .ok absPath →
        InitSearch stat abs path = .ok { maxDeep := 2, basePath := absPath, list := [] }) := by
  refine ⟨?_, ?_, ?_, ?_, ?_⟩
  · intro h
    simp [InitSearch, h]
  · intro h err hs
    simp [InitSearch, h, hs]
  · intro h dir hs hd
    simp [InitSearch, h, hs, hd]
  · intro h dir err hs hd ha
    simp [InitSearch, h, hs, hd, ha]
  · intro h dir absPath hs hd ha
    simp [InitSearch, h, hs, hd, ha, defaultMaxDeep]

/-- Witness for C10: the directory `r`, whose absolute form is `/r`. -/
theorem C10_InitSearch_witness :
    InitSearch statDir absRoot (ascii "r") =
      .ok { maxDeep := 2, basePath := ascii "/r", list := [] } :=
  (C10_InitSearch statDir absRoot (ascii "r")).2.2.2.2 (by decide)
    { name := ascii "r", isDir := true, data := 0 } (ascii "/r") rfl rfl rfl

/-! ## Facts about `IncreaseDeep`, `AddFile` and reachable states -/

theorem IncreaseDeep_maxDeep (s : Search) (hlo : -2 ^ 63 ≤ s.maxDeep)
    (hhi : s.maxDeep + 2 < 2 ^ 63) : (IncreaseDeep s).maxDeep = s.maxDeep + 2 := by
  simp only [IncreaseDeep]
  omega

theorem IncreaseDeep_maxDeep_wrap (s : Search) (hhi : 2 ^ 63 ≤ s.maxDeep + 2)
    (hmax : s.maxDeep < 2 ^ 63) : (IncreaseDeep s).maxDeep = s.maxDeep + 2 - 2 ^ 64 := by
  simp only [IncreaseDeep]
  omega

theorem IncreaseDeep_range (s : Search) :
    -2 ^ 63 ≤ (IncreaseDeep s).maxDeep ∧ (IncreaseDeep s).maxDeep < 2 ^ 63 := by
  simp only [IncreaseDeep]
  omega

theorem Op_basePath_list {sep : Nat} {s s' : Search} (h : Op sep s s') :
    s'.basePath = s.basePath ∧ s.list <+: s'.list := by
  cases h with
  | start done root =>
    have hf := readDir_frame sep done s.basePath root { s := s, polls := 0, log := [] }
    exact ⟨hf.1, hf.2.2⟩
  | addFile file path => exact ⟨rfl, List.prefix_append _ _⟩
  | increaseDeep => exact ⟨rfl, List.prefix_refl _⟩
  | list => exact ⟨rfl, List.prefix_refl _⟩
  | find substr => exact ⟨rfl, List.prefix_refl _⟩

theorem Op_maxDeep {sep : Nat} {s s' : Search} (h : Op sep s s') :
    s'.maxDeep = s.maxDeep ∨ s' = IncreaseDeep s := by
  cases h with
  | start done root =>
    exact Or.inl (readDir_frame sep done s.basePath root { s := s, polls := 0, log := [] }).2.1
  | addFile file path => exact Or.inl rfl
  | increaseDeep => exact Or.inr rfl
  | list => exact Or.inl rfl
  | find substr => exact Or.inl rfl

theorem Reachable_range {sep : Nat} {s : Search} (h : Reachable sep s) :
    -2 ^ 63 ≤ s.maxDeep ∧ s.maxDeep < 2 ^ 63 := by
  induction h with
  | init stat abs path s hinit =>
    have := (InitSearch_ok hinit).2.2.1
    rw [this]
    constructor <;> norm_num
  | step s s' _ hop ih =>
    rcases Op_maxDeep hop with h | h
    · rw [h]; exact ih
    · rw [h]; exact IncreaseDeep_range s

theorem iterate_IncreaseDeep (base : Str) (l : List fileInfo) : ∀ (n : Nat) (m : Int),
    -2 ^ 63 ≤ m → m + 2 * n < 2 ^ 63 →
    IncreaseDeep^[n] { maxDeep := m, basePath := base, list := l } =
      { maxDeep := m + 2 * n, basePath := base, list := l }
  | 0, m, _, _ => by simp
  | n + 1, m, hlo, hhi => by
    rw [Function.iterate_succ_apply']
    rw [iterate_IncreaseDeep base l n m hlo (by push_cast at hhi; omega)]
    have h := IncreaseDeep_maxDeep { maxDeep := m + 2 * n, basePath := base, list := l }
      (by simp only; omega) (by simp only; push_cast at hhi; omega)
    simp only [IncreaseDeep] at h ⊢
    rw [h]
    push_cast
    congr 1
    ring

theorem Reachable_iterate {sep : Nat} {s : Search} (h : Reachable sep s) :
    ∀ n : Nat, Reachable sep (IncreaseDeep^[n] s)
  | 0 => h
  | n + 1 => by
    rw [Function.iterate_succ_apply']
    exact Reachable.step _ _ (Reachable_iterate h n) (Op.increaseDeep _)

/-! ## The walk and a concurrent `IncreaseDeep` -/

mutual
theorem readDir_polls (sep : Nat) (done : Nat → Bool) (path : Str) (listing : Listing)
    (w : Walk) : w.polls ≤ (readDir sep done path listing w).2.polls := by
  cases listing with
  | error err =>
    unfold readDir
    split
    · exact Nat.le_succ _
    · split <;> exact Nat.le_succ _
  | ok entries =>
    unfold readDir
    split
    · exact Nat.le_succ _
    · split
      · have h := rangeLoop_polls sep done path entries { w with polls := w.polls + 1 }
        exact Nat.le_trans (Nat.le_succ _) h
      · exact Nat.le_succ _
theorem rangeLoop_polls (sep : Nat) (done : Nat → Bool) (path : Str)
    (entries : List DirEntry) (w : Walk) :
    w.polls ≤ (rangeLoop sep done path entries w).2.polls := by
  match entries with
  | [] => exact Nat.le_refl _
  | .dir name listing :: rest =>
    have h1 := readDir_polls sep done (Join sep path name) listing w
    unfold rangeLoop
    rcases hr : readDir sep done (Join sep path name) listing w with ⟨_ | err, w1⟩
    · rw [hr] at h1
      exact Nat.le_trans h1 (rangeLoop_polls sep done path rest w1)
    · rw [hr] at h1
      exact Nat.le_trans h1
        (rangeLoop_polls sep done path rest { w1 with log := w1.log ++ [err] })
  | .file _ (.error err) :: rest =>
    unfold rangeLoop
    exact Nat.le_refl _
  | .file _ (.ok fi) :: rest =>
    unfold rangeLoop
    exact rangeLoop_polls sep done path rest { w with s := (AddFile sep w.s fi path).1 }
end

theorem arrive_of_false {signal : Nat → Bool} {w : Walk} (h : signal w.polls = false) :
    arrive signal w = w := by
  unfold arrive
  rw [if_neg (by simp [h])]

theorem arrive_of_true {signal : Nat → Bool} {w : Walk} (h : signal w.polls = true) :
    arrive signal w = { w with s := IncreaseDeep w.s } := by
  unfold arrive
  rw [if_pos h]

mutual
theorem readDirSignal_quiet (sep : Nat) (done signal : Nat → Bool) (path : Str)
    (listing : Listing) (w : Walk) (hq : ∀ n, w.polls ≤ n → signal n = false) :
    readDirSignal sep done signal path listing w = readDir sep done path listing w := by
  have ha := arrive_of_false (hq w.polls (Nat.le_refl _))
  cases listing with
  | error err =>
    unfold readDirSignal readDir
    rw [ha]
  | ok entries =>
    have ih := rangeLoopSignal_quiet sep done signal path entries
      { w with polls := w.polls + 1 } (fun n hn => hq n (Nat.le_of_succ_le hn))
    unfold readDirSignal readDir
    rw [ha]
    simp only [ih]
theorem rangeLoopSignal_quiet (sep : Nat) (done signal : Nat → Bool) (path : Str)
    (entries : List DirEntry) (w : Walk) (hq : ∀ n, w.polls ≤ n → signal n = false) :
    rangeLoopSignal sep done signal path entries w = rangeLoop sep done path entries w := by
  match entries with
  | [] => simp [rangeLoopSignal, rangeLoop]
  | .dir name listing :: rest =>
    have h1 := readDir_polls sep done (Join sep path name) listing w
    unfold rangeLoopSignal rangeLoop
    rw [readDirSignal_quiet sep done signal (Join sep path name) listing w hq]
    rcases hr : readDir sep done (Join sep path name) listing w with ⟨_ | err, w1⟩
    · rw [hr] at h1
      exact rangeLoopSignal_quiet sep done signal path rest w1
        (fun n hn => hq n (Nat.le_trans h1 hn))
    · rw [hr] at h1
      exact rangeLoopSignal_quiet sep done signal path rest { w1 with log := w1.log ++ [err] }
        (fun n hn => hq n (Nat.le_trans h1 hn))
  | .file _ (.error err) :: rest => simp [rangeLoopSignal, rangeLoop]
  | .file _ (.ok fi) :: rest =>
    unfold rangeLoopSignal rangeLoop
    exact rangeLoopSignal_quiet sep done signal path rest
      { w with s := (AddFile sep w.s fi path).1 } hq
end

theorem readDirSignal_arrived (sep : Nat) (done signal : Nat → Bool) (path : Str)
    (listing : Listing) (w : Walk) (hs : signal w.polls = true)
    (hq : ∀ n, w.polls < n → signal n = false) :
    readDirSignal sep done signal path listing w =
      readDir sep done path listing { w with s := IncreaseDeep w.s } := by
  have ha := arrive_of_true hs
  cases listing with
  | error err =>
    unfold readDirSignal readDir
    rw [ha]
  | ok entries =>
    have ih := rangeLoopSignal_quiet sep done signal path entries
      { s := IncreaseDeep w.s, polls := w.polls + 1, log := w.log } (fun n hn => hq n hn)
    unfold readDirSignal readDir
    rw [ha]
    simp only [ih]

theorem readDirSignal_refused (sep : Nat) (done signal : Nat → Bool) (path : Str)
    (listing : Listing) (w : Walk) (hd : done w.polls = false) (hs : signal w.polls = false)
    (hc : canSearchDeeper w.s path = false) :
    readDirSignal sep done signal path listing w = (none, { w with polls := w.polls + 1 }) := by
  have ha := arrive_of_false hs
  cases listing <;>
    (unfold readDirSignal
     rw [ha, if_neg (by simp [hd]), if_neg (by simp [hc])])

theorem canSearchDeeper_mono {s s' : Search} (path : Str) (hb : s'.basePath = s.basePath)
    (hle : s.maxDeep ≤ s'.maxDeep) (h : canSearchDeeper s path = true) :
    canSearchDeeper s' path = true := by
  unfold canSearchDeeper at h ⊢
  rw [hb]
  simp only [Bool.and_eq_true, Bool.or_eq_true, decide_eq_true_eq] at h ⊢
  refine ⟨h.1, ?_⟩
  rcases h.2 with h2 | h2
  · exact Or.inl h2
  · exact Or.inr (le_trans h2 hle)

/-! ## The walk does not read the results -/

mutual
theorem readDir_uniform (sep : Nat) (done : Nat → Bool) (path : Str) (listing : Listing)
    (D : Int) (base : Str) (p : Nat) (lg : List Error) :
    ∃ r added p' lg', ∀ l : List fileInfo,
      readDir sep done path listing
          { s := { maxDeep := D, basePath := base, list := l }, polls := p, log := lg } =
        (r, { s := { maxDeep := D, basePath := base, list := l ++ added },
              polls := p', log := lg' }) := by
  by_cases hd : done p = true
  · refine ⟨none, [], p + 1, lg, fun l => ?_⟩
    cases listing <;> simp [readDir, hd]
  · by_cases hc : canSearchDeeper { maxDeep := D, basePath := base, list := [] } path = true
    · cases listing with
      | error err =>
        refine ⟨some err, [], p + 1, lg, fun l => ?_⟩
        have hc' : canSearchDeeper { maxDeep := D, basePath := base, list := l } path = true :=
          hc
        simp [readDir, hd, hc']
      | ok entries =>
        obtain ⟨r, added, p', lg', h⟩ :=
          rangeLoop_uniform sep done path entries D base (p + 1) lg
        refine ⟨r, added, p', lg', fun l => ?_⟩
        have hc' : canSearchDeeper { maxDeep := D, basePath := base, list := l } path = true :=
          hc
        simp only [readDir, hd, hc', if_true]
        exact h l
    · refine ⟨none, [], p + 1, lg, fun l => ?_⟩
      have hc' : ¬ canSearchDeeper { maxDeep := D, basePath := base, list := l } path = true :=
        hc
      cases listing <;> simp [readDir, hd, hc']
theorem rangeLoop_uniform (sep : Nat) (done : Nat → Bool) (path : Str)
    (entries : List DirEntry) (D : Int) (base : Str) (p : Nat) (lg : List Error) :
    ∃ r added p' lg', ∀ l : List fileInfo,
      rangeLoop sep done path entries
          { s := { maxDeep := D, basePath := base, list := l }, polls := p, log := lg } =
        (r, { s := { maxDeep := D, basePath := base, list := l ++ added },
              polls := p', log := lg' }) := by
  match entries with
  | [] => exact ⟨none, [], p, lg, fun l => by simp [rangeLoop]⟩
  | .dir name listing :: rest =>
    obtain ⟨r1, a1, p1, lg1, h1⟩ :=
      readDir_uniform sep done (Join sep path name) listing D base p lg
    cases r1 with
    | none =>
      obtain ⟨r2, a2, p2, lg2, h2⟩ := rangeLoop_uniform sep done path rest D base p1 lg1
      refine ⟨r2, a1 ++ a2, p2, lg2, fun l => ?_⟩
      simp only [rangeLoop, h1 l, h2 (l ++ a1), List.append_assoc]
    | some err =>
      obtain ⟨r2, a2, p2, lg2, h2⟩ :=
        rangeLoop_uniform sep done path rest D base p1 (lg1 ++ [err])
      refine ⟨r2, a1 ++ a2, p2, lg2, fun l => ?_⟩
      simp only [rangeLoop, h1 l, h2 (l ++ a1), List.append_assoc]
  | .file _ (.error err) :: rest =>
    exact ⟨some err, [], p, lg, fun l => by simp [rangeLoop]⟩
  | .file _ (.ok fi) :: rest =>
    obtain ⟨r2, a2, p2, lg2, h2⟩ := rangeLoop_uniform sep done path rest D base p lg
    refine ⟨r2, { FileInfo := fi, path := Join sep path fi.name } :: a2, p2, lg2, fun l => ?_⟩
    simp only [rangeLoop, AddFile, h2 (l ++ [_]), List.append_assoc, List.singleton_append]
end

theorem Start_uniform (sep : Nat) (done : Nat → Bool) (root : Listing) (s : Search) :
    (Start sep done root s).1 = (Start sep done root { s with list := [] }).1 ∧
      (Start sep done root s).2.s =
        { s with list := s.list ++ (Start sep done root { s with list := [] }).2.s.list } := by
  obtain ⟨r, added, p', lg', h⟩ :=
    readDir_uniform sep done s.basePath root s.maxDeep s.basePath 0 []
  unfold Start
  have h1 := h s.list
  have h2 := h []
  simp only [List.nil_append] at h2
  rw [h1, h2]
  exact ⟨rfl, rfl⟩

/-! ## Monotonicity in the depth limit -/

mutual
theorem flattenListing_mono (sep : Nat) (base : Str) (D D' : Int) (h : D ≤ D') (path : Str)
    (listing : Listing) :
    (flattenListing sep base D path listing).Sublist
      (flattenListing sep base D' path listing) := by
  cases listing with
  | error err => simp [flattenListing]
  | ok entries =>
    unfold flattenListing
    by_cases hc : canSearchDeeper { maxDeep := D, basePath := base, list := [] } path = true
    · have hc' : canSearchDeeper { maxDeep := D', basePath := base, list := [] } path = true :=
        canSearchDeeper_mono (s := { maxDeep := D, basePath := base, list := [] }) path rfl h hc
      rw [if_pos hc, if_pos hc']
      exact flattenEntries_mono sep base D D' h path entries
    · rw [if_neg hc]
      exact List.nil_sublist _
theorem flattenEntries_mono (sep : Nat) (base : Str) (D D' : Int) (h : D ≤ D') (path : Str)
    (entries : List DirEntry) :
    (flattenEntries sep base D path entries).Sublist
      (flattenEntries sep base D' path entries) := by
  match entries with
  | [] => simp [flattenEntries]
  | .file _ (.ok fi) :: rest =>
    unfold flattenEntries
    exact (flattenEntries_mono sep base D D' h path rest).cons₂ _
  | .file _ (.error err) :: rest =>
    unfold flattenEntries
    exact flattenEntries_mono sep base D D' h path rest
  | .dir name listing :: rest =>
    unfold flattenEntries
    exact (flattenListing_mono sep base D D' h (Join sep path name) listing).append
      (flattenEntries_mono sep base D D' h path rest)
end

/-! ## The limit during a walk with a concurrent `IncreaseDeep` -/

theorem readDir_polls_succ (sep : Nat) (done : Nat → Bool) (path : Str) (listing : Listing)
    (w : Walk) : w.polls + 1 ≤ (readDir sep done path listing w).2.polls := by
  cases listing with
  | error err =>
    unfold readDir
    split
    · exact Nat.le_refl _
    · split <;> exact Nat.le_refl _
  | ok entries =>
    unfold readDir
    split
    · exact Nat.le_refl _
    · split
      · exact rangeLoop_polls sep done path entries { w with polls := w.polls + 1 }
      · exact Nat.le_refl _

theorem IncreaseDeep_maxDeep_congr {s s' : Search} (h : s.maxDeep = s'.maxDeep) :
    (IncreaseDeep s).maxDeep = (IncreaseDeep s').maxDeep := by
  simp only [IncreaseDeep, h]

theorem signalAt_ne {k n : Nat} (h : n ≠ k) : signalAt k n = false := by
  simp [signalAt, h]

theorem rangeLoopSignal_dir_step (sep : Nat) (done signal : Nat → Bool) (path name : Str)
    (listing : Listing) (rest : List DirEntry) (w : Walk) :
    ∃ lg, rangeLoopSignal sep done signal path (.dir name listing :: rest) w =
      rangeLoopSignal sep done signal path rest
        { s := (readDirSignal sep done signal (Join sep path name) listing w).2.s,
          polls := (readDirSignal sep done signal (Join sep path name) listing w).2.polls,
          log := lg } := by
  simp only [rangeLoopSignal]
  rcases readDirSignal sep done signal (Join sep path name) listing w with ⟨_ | err, w1⟩
  · exact ⟨w1.log, rfl⟩
  · exact ⟨w1.log ++ [err], rfl⟩

mutual
theorem readDirSignal_polls (sep : Nat) (done signal : Nat → Bool) (path : Str)
    (listing : Listing) (w : Walk) :
    w.polls + 1 ≤ (readDirSignal sep done signal path listing w).2.polls := by
  cases listing with
  | error err =>
    unfold readDirSignal
    split
    · exact Nat.le_refl _
    · split <;> exact Nat.le_refl _
  | ok entries =>
    unfold readDirSignal
    split
    · exact Nat.le_refl _
    · split
      · exact rangeLoopSignal_polls sep done signal path entries
          { arrive signal w with polls := w.polls + 1 }
      · exact Nat.le_refl _
theorem rangeLoopSignal_polls (sep : Nat) (done signal : Nat → Bool) (path : Str)
    (entries : List DirEntry) (w : Walk) :
    w.polls ≤ (rangeLoopSignal sep done signal path entries w).2.polls := by
  match entries with
  | [] => exact Nat.le_refl _
  | .dir name listing :: rest =>
    have h1 := readDirSignal_polls sep done signal (Join sep path name) listing w
    obtain ⟨lg, hs⟩ := rangeLoopSignal_dir_step sep done signal path name listing rest w
    rw [hs]
    have h2 := rangeLoopSignal_polls sep done signal path rest
      { s := (readDirSignal sep done signal (Join sep path name) listing w).2.s,
        polls := (readDirSignal sep done signal (Join sep path name) listing w).2.polls,
        log := lg }
    simp only at h2
    omega
  | .file _ (.error err) :: rest =>
    unfold rangeLoopSignal
    exact Nat.le_refl _
  | .file _ (.ok fi) :: rest =>
    unfold rangeLoopSignal
    exact rangeLoopSignal_polls sep done signal path rest
      { w with s := (AddFile sep w.s fi path).1 }
end

theorem rangeLoopSignal_append (sep : Nat) (done signal : Nat → Bool) (path : Str)
    (post : List DirEntry) :
    ∀ (pre : List DirEntry) (w : Walk), topMetadataOk pre = true →
      rangeLoopSignal sep done signal path (pre ++ post) w =
        rangeLoopSignal sep done signal path post
          (rangeLoopSignal sep done signal path pre w).2
  | [], w, _ => by simp [rangeLoopSignal]
  | .dir name listing :: rest, w, h => by
    simp only [List.cons_append, rangeLoopSignal]
    rcases readDirSignal sep done signal (Join sep path name) listing w with ⟨_ | err, w1⟩
    · exact rangeLoopSignal_append sep done signal path post rest _
        (by simpa [topMetadataOk] using h)
    · exact rangeLoopSignal_append sep done signal path post rest _
        (by simpa [topMetadataOk] using h)
  | .file _ (.error err) :: rest, w, h => by simp [topMetadataOk] at h
  | .file _ (.ok fi) :: rest, w, h => by
    simp only [List.cons_append, rangeLoopSignal, AddFile]
    exact rangeLoopSignal_append sep done signal path post rest _
      (by simpa [topMetadataOk] using h)

mutual
theorem readDirSignal_maxDeep (sep : Nat) (done : Nat → Bool) (k : Nat) (path : Str)
    (listing : Listing) (w : Walk) :
    (readDirSignal sep done (signalAt k) path listing w).2.s.maxDeep =
      if w.polls ≤ k ∧ k < (readDirSignal sep done (signalAt k) path listing w).2.polls then
        (IncreaseDeep w.s).maxDeep
      else w.s.maxDeep := by
  by_cases hk : w.polls = k
  · have hp := readDirSignal_polls sep done (signalAt k) path listing w
    rw [if_pos ⟨by omega, by omega⟩]
    rw [readDirSignal_arrived sep done (signalAt k) path listing w (by simp [signalAt, hk])
      (fun n hn => signalAt_ne (by omega))]
    exact (readDir_frame sep done path listing { w with s := IncreaseDeep w.s }).2.1
  · have ha : arrive (signalAt k) w = w := arrive_of_false (signalAt_ne hk)
    cases listing with
    | error err =>
      unfold readDirSignal
      rw [ha]
      split
      · rw [if_neg (by simp only; omega)]
      · split <;> rw [if_neg (by simp only; omega)]
    | ok entries =>
      have ih := rangeLoopSignal_maxDeep sep done k path entries
        { w with polls := w.polls + 1 }
      unfold readDirSignal
      rw [ha]
      split
      · rw [if_neg (by simp only; omega)]
      · split
        · simp only at ih ⊢
          rw [ih]
          by_cases hc : w.polls + 1 ≤ k ∧
              k < (rangeLoopSignal sep done (signalAt k) path entries
                { s := w.s, polls := w.polls + 1, log := w.log }).2.polls
          · rw [if_pos hc, if_pos ⟨by omega, hc.2⟩]
          · rw [if_neg hc, if_neg (fun h => hc ⟨by omega, h.2⟩)]
        · rw [if_neg (by simp only; omega)]
theorem rangeLoopSignal_maxDeep (sep : Nat) (done : Nat → Bool) (k : Nat) (path : Str)
    (entries : List DirEntry) (w : Walk) :
    (rangeLoopSignal sep done (signalAt k) path entries w).2.s.maxDeep =
      if w.polls ≤ k ∧ k < (rangeLoopSignal sep done (signalAt k) path entries w).2.polls then
        (IncreaseDeep w.s).maxDeep
      else w.s.maxDeep := by
  match entries with
  | [] =>
    simp only [rangeLoopSignal]
    rw [if_neg (by omega)]
  | .dir name listing :: rest =>
    have h1 := readDirSignal_maxDeep sep done k (Join sep path name) listing w
    have hp1 := readDirSignal_polls sep done (signalAt k) (Join sep path name) listing w
    obtain ⟨lg, hs⟩ := rangeLoopSignal_dir_step sep done (signalAt k) path name listing rest w
    have h2 := rangeLoopSignal_maxDeep sep done k path rest
      { s := (readDirSignal sep done (signalAt k) (Join sep path name) listing w).2.s,
        polls := (readDirSignal sep done (signalAt k) (Join sep path name) listing w).2.polls,
        log := lg }
    have hp2 := rangeLoopSignal_polls sep done (signalAt k) path rest
      { s := (readDirSignal sep done (signalAt k) (Join sep path name) listing w).2.s,
        polls := (readDirSignal sep done (signalAt k) (Join sep path name) listing w).2.polls,
        log := lg }
    rw [hs]
    simp only at h2 hp2
    rw [h2]
    by_cases c1 : w.polls ≤ k ∧
        k < (readDirSignal sep done (signalAt k) (Join sep path name) listing w).2.polls
    · rw [if_pos c1] at h1
      rw [if_neg (by omega), if_pos ⟨c1.1, by omega⟩, h1]
    · rw [if_neg c1] at h1
      have hcongr := IncreaseDeep_maxDeep_congr h1
      rw [hcongr, h1]
      by_cases c2 : (readDirSignal sep done (signalAt k) (Join sep path name) listing w).2.polls
          ≤ k ∧ k < (rangeLoopSignal sep done (signalAt k) path rest
            { s := (readDirSignal sep done (signalAt k) (Join sep path name) listing w).2.s,
              polls :=
                (readDirSignal sep done (signalAt k) (Join sep path name) listing w).2.polls,
              log := lg }).2.polls
      · rw [if_pos c2, if_pos ⟨by omega, c2.2⟩]
      · rw [if_neg c2, if_neg (fun h => c2 ⟨by omega, h.2⟩)]
  | .file _ (.error err) :: rest =>
    simp only [rangeLoopSignal]
    rw [if_neg (by omega)]
  | .file _ (.ok fi) :: rest =>
    have h2 := rangeLoopSignal_maxDeep sep done k path rest
      { w with s := (AddFile sep w.s fi path).1 }
    simp only [rangeLoopSignal, AddFile] at h2 ⊢
    rw [h2]
    rfl
end

mutual
theorem readDirSignal_before (sep : Nat) (done : Nat → Bool) (k : Nat) (path : Str)
    (listing : Listing) (w : Walk)
    (h : (readDir sep done path listing w).2.polls ≤ k) :
    readDirSignal sep done (signalAt k) path listing w = readDir sep done path listing w := by
  have hp := readDir_polls_succ sep done path listing w
  have ha : arrive (signalAt k) w = w := arrive_of_false (signalAt_ne (by omega))
  cases listing with
  | error err =>
    unfold readDirSignal readDir
    rw [ha]
  | ok entries =>
    by_cases hd : done w.polls = true
    · simp only [readDirSignal, readDir, ha, hd, if_true]
    · by_cases hc : canSearchDeeper w.s path = true
      · have h' : (rangeLoop sep done path entries { w with polls := w.polls + 1 }).2.polls
            ≤ k := by
          simpa only [readDir, hd, hc, if_true, if_false] using h
        have ih := rangeLoopSignal_before sep done k path entries
          { w with polls := w.polls + 1 } h'
        simp only [readDirSignal, readDir, ha, hd, hc, if_true, if_false]
        exact ih
      · simp [readDirSignal, readDir, ha, hd, hc]
theorem rangeLoopSignal_before (sep : Nat) (done : Nat → Bool) (k : Nat) (path : Str)
    (entries : List DirEntry) (w : Walk)
    (h : (rangeLoop sep done path entries w).2.polls ≤ k) :
    rangeLoopSignal sep done (signalAt k) path entries w =
      rangeLoop sep done path entries w := by
  match entries with
  | [] => simp [rangeLoopSignal, rangeLoop]
  | .dir name listing :: rest =>
    obtain ⟨lg, hs⟩ := rangeLoop_dir_step sep done path name listing rest w
    have hp := rangeLoop_polls sep done path rest
      { s := (readDir sep done (Join sep path name) listing w).2.s,
        polls := (readDir sep done (Join sep path name) listing w).2.polls, log := lg }
    have h0 := h
    rw [hs] at h
    simp only at hp
    have ih1 := readDirSignal_before sep done k (Join sep path name) listing w (by omega)
    simp only [rangeLoopSignal, rangeLoop, ih1]
    simp only [rangeLoop] at h0
    rcases hr : readDir sep done (Join sep path name) listing w with ⟨_ | err, w1⟩
    · rw [hr] at h0
      exact rangeLoopSignal_before sep done k path rest w1 h0
    · rw [hr] at h0
      exact rangeLoopSignal_before sep done k path rest { w1 with log := w1.log ++ [err] } h0
  | .file _ (.error err) :: rest => simp [rangeLoopSignal, rangeLoop]
  | .file _ (.ok fi) :: rest =>
    simp only [rangeLoop, AddFile] at h
    simp only [rangeLoopSignal, rangeLoop, AddFile]
    exact rangeLoopSignal_before sep done k path rest _ h
end

/-! ## `Join` against `filepath.Join` on Unix -/

theorem Split_single_nil (c : Nat) : Split [] [c] = [[]] := by
  simp [Split, genSplitLoop]

theorem Split_single_ne_nil (c : Nat) (s : Str) : Split s [c] ≠ [] := by
  unfold Split
  rw [if_neg (by simp)]
  exact genSplitLoop_ne_nil _ _ _

theorem Split_single_cons_self (c : Nat) (s : Str) :
    Split (c :: s) [c] = [] :: Split s [c] := by
  unfold Split
  rw [if_neg (by simp), if_neg (by simp)]
  simp only [List.length_cons]
  rw [genSplitLoop]
  have hi : Index (c :: s) [c] = some 0 := Index_at_start (List.prefix_iff_eq_append.mpr rfl)
  rw [hi]
  simp

theorem Split_single_cons_ne {c x : Nat} (hx : x ≠ c) (s : Str) :
    Split (x :: s) [c] =
      match Split s [c] with
      | [] => [[x]]
      | p :: ps => (x :: p) :: ps := by
  have hp : ¬ [c].isPrefixOf (x :: s) = true := by
    simp [List.isPrefixOf]; exact fun h => hx h.symm
  have hix : Index (x :: s) [c] = (Index s [c]).map (· + 1) := by
    rw [Index, if_neg hp]
  unfold Split
  rw [if_neg (by simp), if_neg (by simp)]
  simp only [List.length_cons]
  rw [genSplitLoop, hix]
  cases hi : Index s [c] with
  | none =>
    have hone : genSplitLoop [c] s.length s = [s] :=
      genSplitLoop_one_piece _ ((Index_eq_none_iff s [c]).mp hi)
    simp [hone]
  | some m =>
    have hm := Index_lt_length (show ([c] : Str) ≠ [] by simp) hi
    obtain ⟨n, hn⟩ : ∃ n, s.length = n + 1 := ⟨s.length - 1, by omega⟩
    rw [hn, genSplitLoop, hi]
    simp only [Option.map_some', List.length_singleton]
    have hfuel := genSplitLoop_fuel [c] (by simp) n (List.drop (m + 1) s)
      (by simp only [List.length_drop]; omega)
    simp only [List.drop_succ_cons, List.take_succ_cons]
    rw [hfuel]

theorem Split_single_append (c : Nat) (b : Str) : ∀ a : Str,
    Split (a ++ c :: b) [c] = Split a [c] ++ Split b [c]
  | [] => by simp [Split_single_cons_self, Split_single_nil]
  | x :: a => by
    by_cases hx : x = c
    · subst hx
      rw [List.cons_append, Split_single_cons_self, Split_single_cons_self,
        Split_single_append x b a, List.cons_append]
    · rw [List.cons_append, Split_single_cons_ne hx, Split_single_cons_ne hx,
        Split_single_append c b a]
      cases hs : Split a [c] with
      | nil => exact absurd hs (Split_single_ne_nil c a)
      | cons p ps => simp

theorem Split_single_free (c : Nat) : ∀ (s : Str), ∀ p ∈ Split s [c], c ∉ p
  | [] => by simp [Split_single_nil]
  | x :: s => by
    have ih := Split_single_free c s
    by_cases hx : x = c
    · subst hx
      rw [Split_single_cons_self]
      intro p hp
      rcases List.mem_cons.mp hp with h | h
      · rw [h]; simp
      · exact ih p h
    · rw [Split_single_cons_ne hx]
      cases hs : Split s [c] with
      | nil => exact absurd hs (Split_single_ne_nil c s)
      | cons q qs =>
        rw [hs] at ih
        intro p hp
        rcases List.mem_cons.mp hp with h | h
        · rw [h]
          intro hmem
          rcases List.mem_cons.mp hmem with h1 | h1
          · exact hx h1.symm
          · exact ih q (List.mem_cons_self _ _) h1
        · exact ih p (List.mem_cons_of_mem _ h)

theorem Split_single_one {c : Nat} {s : Str} (h : c ∉ s) : Split s [c] = [s] := by
  unfold Split
  rw [if_neg (by simp)]
  apply genSplitLoop_one_piece
  rintro ⟨l1, l2, hl⟩
  apply h
  rw [← hl]
  simp

theorem cleanStep_mem (rooted : Bool) (out : List Str) (e : Str) :
    ∀ x ∈ cleanStep rooted out e, x ∈ out ∨ (x = e ∧ e ≠ []) := by
  intro x hx
  unfold cleanStep at hx
  split at hx
  · exact Or.inl hx
  · rename_i hne
    have he : e ≠ [] := fun h => hne (Or.inl h)
    split at hx
    · split at hx
      · split at hx
        · rcases List.mem_append.mp hx with h | h
          · exact Or.inl h
          · exact Or.inr ⟨by simpa using h, he⟩
        · exact Or.inl (List.mem_of_mem_dropLast hx)
      · split at hx
        · exact Or.inl hx
        · rcases List.mem_append.mp hx with h | h
          · exact Or.inl h
          · exact Or.inr ⟨by simpa using h, he⟩
    · rcases List.mem_append.mp hx with h | h
      · exact Or.inl h
      · exact Or.inr ⟨by simpa using h, he⟩

theorem foldl_cleanStep_mem (rooted : Bool) : ∀ (xs : List Str) (acc : List Str),
    ∀ x ∈ xs.foldl (cleanStep rooted) acc, x ∈ acc ∨ (x ∈ xs ∧ x ≠ [])
  | [], acc => by
    intro x hx
    exact Or.inl hx
  | e :: xs, acc => by
    intro x hx
    rw [List.foldl_cons] at hx
    rcases foldl_cleanStep_mem rooted xs _ x hx with h | h
    · rcases cleanStep_mem rooted acc e x h with h1 | h1
      · exact Or.inl h1
      · exact Or.inr ⟨by rw [h1.1]; exact List.mem_cons_self _ _, by rw [h1.1]; exact h1.2⟩
    · exact Or.inr ⟨List.mem_cons_of_mem _ h.1, h.2⟩

theorem intercalate_concat (sep : Str) (y : Str) : ∀ xs : List Str,
    sep.intercalate (xs ++ [y]) =
      if xs = [] then y else sep.intercalate xs ++ sep ++ y
  | [] => by simp [List.intercalate]
  | [x] => by simp [List.intercalate]
  | x :: x' :: xs => by
    have ih := intercalate_concat sep y (x' :: xs)
    rw [if_neg (by simp)] at ih
    rw [if_neg (by simp)]
    simp only [List.intercalate, List.cons_append, List.intersperse_cons_cons, List.flatten_cons]
      at ih ⊢
    rw [ih]
    simp

theorem cleanStep_plain {name : Str} (h : ValidName slash name) (rooted : Bool)
    (out : List Str) : cleanStep rooted out name = out ++ [name] := by
  obtain ⟨hne, _, hdot, hdotdot⟩ := h
  unfold cleanStep
  rw [if_neg (by simp [hne, hdot]), if_neg hdotdot]

theorem CleanUnix_rooted {path : Str} (h : path.head? = some slash) :
    CleanUnix path =
      slash :: [slash].intercalate ((Split path [slash]).foldl (cleanStep true) []) := by
  unfold CleanUnix
  simp [h]

/-- On Unix, `Join` agrees with `filepath.Join` on an absolute, clean directory path and a
plain name, the arguments of every call the walk makes from a base path that
`filepath.Abs` returned. -/
theorem JoinUnix_eq_Join (dir name : Str) (hroot : dir.head? = some slash)
    (hclean : CleanUnix dir = dir) (hname : ValidName slash name) :
    JoinUnix dir name = Join slash dir name := by
  have hd : dir ≠ [] := by
    intro h; rw [h] at hroot; simp at hroot
  have hdir := CleanUnix_rooted hroot
  rw [hclean] at hdir
  have hroot2 : (dir ++ slash :: name).head? = some slash := by
    cases dir with
    | nil => exact absurd rfl hd
    | cons x xs => simpa using hroot
  have hjoin : JoinUnix dir name = slash :: [slash].intercalate
      ((Split dir [slash]).foldl (cleanStep true) [] ++ [name]) := by
    unfold JoinUnix
    rw [if_pos hd, CleanUnix_rooted hroot2, Split_single_append,
      Split_single_one hname.2.1, List.foldl_append]
    simp only [List.foldl_cons, List.foldl_nil]
    rw [cleanStep_plain hname]
  rw [hjoin, intercalate_concat]
  by_cases hout : (Split dir [slash]).foldl (cleanStep true) [] = []
  · rw [if_pos hout]
    rw [hout] at hdir
    simp only [List.intercalate, List.intersperse_nil, List.flatten_nil] at hdir
    unfold Join
    rw [if_neg hd, if_neg hname.1, if_pos (by rw [hdir]; rfl), hdir]
    rfl
  · rw [if_neg hout]
    have hlast : dir.getLast? ≠ some slash := by
      obtain ⟨init, t, hit⟩ : ∃ init t,
          (Split dir [slash]).foldl (cleanStep true) [] = init ++ [t] :=
        ⟨_, _, (List.dropLast_append_getLast hout).symm⟩
      have ht : t ∈ (Split dir [slash]).foldl (cleanStep true) [] := by
        rw [hit]; simp
      rcases foldl_cleanStep_mem true _ [] t ht with h | h
      · simp at h
      · have hfree := Split_single_free slash dir t h.1
        rw [hit, intercalate_concat] at hdir
        by_cases hinit : init = []
        · rw [if_pos hinit] at hdir
          rw [hdir]
          exact getLast?_append_name [] h.2 hfree
        · rw [if_neg hinit] at hdir
          rw [hdir]
          have hshape : slash :: ([slash].intercalate init ++ [slash] ++ t) =
              (slash :: [slash].intercalate init) ++ slash :: t := by simp
          rw [hshape]
          exact getLast?_append_name _ h.2 hfree
    rw [Join_plain hd hlast hname.1]
    conv_rhs => rw [hdir]
    simp

/-- C11, as stated, fails. `maxDeep` is a 64-bit signed `int`: in the state with
`maxDeep = 9223372036854775806` the addition wraps around and `IncreaseDeep` leaves
`maxDeep = -9223372036854775808`, not the previous value plus 2. -/
theorem C11_counterexample :
    (IncreaseDeep topState).maxDeep = -9223372036854775808 ∧
      ¬ (IncreaseDeep topState).maxDeep = 9223372036854775806 + 2 := by
  decide

/-- C11, amended. For every state, `IncreaseDeep()` leaves `basePath` and the results
unchanged; it leaves `maxDeep` equal to its previous value plus 2 whenever that sum is
below 2^63 (the previous value being a 64-bit `int`), and equal to the previous value plus
2 minus 2^64, a negative number, for the two largest values, where the addition wraps
around. -/
theorem C11_increaseDeep (s : Search) :
    (IncreaseDeep s).basePath = s.basePath ∧
      (IncreaseDeep s).list = s.list ∧
      (-2 ^ 63 ≤ s.maxDeep → s.maxDeep + 2 < 2 ^ 63 →
        (IncreaseDeep s).maxDeep = s.maxDeep + 2) ∧
      (2 ^ 63 ≤ s.maxDeep + 2 → s.maxDeep < 2 ^ 63 →
        (IncreaseDeep s).maxDeep = s.maxDeep + 2 - 2 ^ 64) :=
  ⟨rfl, rfl, IncreaseDeep_maxDeep s, IncreaseDeep_maxDeep_wrap s⟩

/-- Witness for C11: the state left by the construction, `maxDeep = 2`. -/
theorem C11_increaseDeep_witness :
    (IncreaseDeep freshState).maxDeep = 2 + 2 :=
  (C11_increaseDeep freshState).2.2.1
    (by decide) (by decide)

/-- C12. For every state, every file metadata value and every parent path,
`AddFile(metadata, parentPath)` returns no error and leaves the results equal to the
previous results followed by exactly one new record, whose name and metadata are those of
the given file and whose path is `filepath.Join(parentPath, name)`, the parent path joined
with the name of the file by the library function of the platform, whatever that function
is (`join`); the earlier records, `basePath` and `maxDeep` are unchanged. `AddFile sep` of
the walk is the instance at `Join sep`. On Unix, where joining cleans the path, the record
of the file `f` added for the parent path `/r/../x` has the path `/x/f`, and the record of
a file named `.` added for the parent path `/r` has the path `/r`; for an absolute, clean
parent path and a plain file name the result is the one of `AddFile` of the walk, the
record whose path is the parent path, a slash unless the parent path ends in one, and the
name. -/
theorem C12_addFile (join : Str → Str → Str) (s : Search) (file : OsFileInfo) (path : Str) :
    (AddFileWith join s file path).2 = none ∧
      (∃ r, (AddFileWith join s file path).1.List = s.List ++ [r] ∧
        r.Name = file.name ∧ r.FileInfo = file ∧ r.Path = join path file.name) ∧
      s.List <+: (AddFileWith join s file path).1.List ∧
      (AddFileWith join s file path).1.List.length = s.List.length + 1 ∧
      (AddFileWith join s file path).1.basePath = s.basePath ∧
      (AddFileWith join s file path).1.maxDeep = s.maxDeep ∧
      (∀ sep, AddFile sep s file path = AddFileWith (Join sep) s file path) ∧
      (AddFileWith JoinUnix s fInfo (ascii "/r/../x")).1.List =
        s.List ++ [{ FileInfo := fInfo, path := ascii "/x/f" }] ∧
      (AddFileWith JoinUnix s dotInfo (ascii "/r")).1.List =
        s.List ++ [{ FileInfo := dotInfo, path := ascii "/r" }] ∧
      (path.head? = some slash → CleanUnix path = path → ValidName slash file.name →
        AddFileWith JoinUnix s file path = AddFile slash s file path ∧
          JoinUnix path file.name =
            if path.getLast? = some slash then path ++ file.name
            else path ++ slash :: file.name) := by
  refine ⟨rfl, ⟨{ FileInfo := file, path := join path file.name }, rfl, rfl, rfl, rfl⟩,
    List.prefix_append _ _, by simp [AddFileWith, Search.List], rfl, rfl, fun _ => rfl,
    ?_, ?_, ?_⟩
  · have h : JoinUnix (ascii "/r/../x") fInfo.name = ascii "/x/f" := by decide
    simp only [AddFileWith, Search.List, h]
  · have h : JoinUnix (ascii "/r") dotInfo.name = ascii "/r" := by decide
    simp only [AddFileWith, Search.List, h]
  · intro hroot hclean hname
    have h := JoinUnix_eq_Join path file.name hroot hclean hname
    refine ⟨by simp only [AddFileWith, AddFile, h], ?_⟩
    rw [h]
    have hd : path ≠ [] := by
      intro hp; rw [hp] at hroot; simp at hroot
    unfold Join
    rw [if_neg hd, if_neg hname.1]

/-- Witness for C12: on Unix the file `f` added for the parent path `/r`. -/
theorem C12_addFile_witness :
    AddFileWith JoinUnix freshState fInfo (ascii "/r") =
        AddFile slash freshState fInfo (ascii "/r") ∧
      JoinUnix (ascii "/r") fInfo.name =
        if (ascii "/r").getLast? = some slash then ascii "/r" ++ fInfo.name
        else ascii "/r" ++ slash :: fInfo.name :=
  (C12_addFile JoinUnix freshState fInfo (ascii "/r")).2.2.2.2.2.2.2.2.2
    (by decide) (by decide) (by decide)

/-- C13, as stated, fails. The state with `maxDeep = 9223372036854775806` is reachable
from a successful construction (by `IncreaseDeep` calls), and there `IncreaseDeep` leaves
`maxDeep = -9223372036854775808`, which is less than its previous value. -/
theorem C13_counterexample :
    Reachable slash topState ∧
      Op slash topState (IncreaseDeep topState) ∧
      (IncreaseDeep topState).maxDeep < 9223372036854775806 := by
  refine ⟨?_, Op.increaseDeep _, by decide⟩
  have h0 : Reachable slash { maxDeep := 2, basePath := ascii "/r", list := [] } :=
    Reachable.init statDir absRoot (ascii "r") _ rfl
  have h1 := Reachable_iterate h0 4611686018427387902
  rw [iterate_IncreaseDeep _ _ _ _ (by norm_num) (by norm_num)] at h1
  have he : (2 : Int) + 2 * ((4611686018427387902 : Nat) : Int) = 9223372036854775806 := by
    norm_num
  rw [he] at h1
  exact h1

/-- C13, amended. Every operation of the engine (`Start`, `AddFile`, `IncreaseDeep`,
`List`, `Find`), from every state reachable from a successful construction, leaves
`basePath` unchanged and the previous results a prefix of the new results; it leaves
`maxDeep` greater than or equal to its previous value whenever the previous value plus 2 is
below 2^63, and in every case unless the operation is an `IncreaseDeep` whose addition
wraps around, leaving the previous value plus 2 minus 2^64. -/
theorem C13_operations_preserve (sep : Nat) (s s' : Search) (hr : Reachable sep s)
    (hop : Op sep s s') :
    s'.basePath = s.basePath ∧
      s.List <+: s'.List ∧
      (s.maxDeep + 2 < 2 ^ 63 → s.maxDeep ≤ s'.maxDeep) ∧
      (s.maxDeep ≤ s'.maxDeep ∨
        (s' = IncreaseDeep s ∧ s'.maxDeep = s.maxDeep + 2 - 2 ^ 64)) := by
  have hrange := Reachable_range hr
  have hbl := Op_basePath_list hop
  refine ⟨hbl.1, hbl.2, ?_, ?_⟩
  · intro hhi
    rcases Op_maxDeep hop with h | h
    · rw [h]
    · rw [h, IncreaseDeep_maxDeep s hrange.1 hhi]
      omega
  · rcases Op_maxDeep hop with h | h
    · exact Or.inl (by rw [h])
    · by_cases hhi : s.maxDeep + 2 < 2 ^ 63
      · left
        rw [h, IncreaseDeep_maxDeep s hrange.1 hhi]
        omega
      · right
        refine ⟨h, ?_⟩
        rw [h]
        exact IncreaseDeep_maxDeep_wrap s (by omega) hrange.2

/-- Witness for C13: `IncreaseDeep` on the state left by the construction of `/r`. -/
theorem C13_operations_preserve_witness :
    (IncreaseDeep freshState).basePath =
        ascii "/r" ∧
      (2 : Int) ≤ (IncreaseDeep freshState).maxDeep :=
  have h := C13_operations_preserve slash freshState
    (IncreaseDeep freshState)
    (Reachable.init statDir absRoot (ascii "r") _ rfl) (Op.increaseDeep _)
  ⟨h.1, h.2.2.1 (by decide)⟩

/-- C14. In a walk during which `IncreaseDeep()` takes effect between two directory visits
(just before the `k`-th poll): the directory visited at that poll is walked exactly as
`readDir` walks it from the state with the limit `IncreaseDeep` leaves, and so is every
directory visited later; without deadline expiry or metadata failure the branch entered at
that poll contributes its flattening under the new limit, so files that the old limit
excluded are collected from it. The limit changes once, when the walk passes that poll,
and is never changed back: after any part of the walk the state holds the raised limit if
the part has passed the poll and the limit it started with otherwise. So once the increase
has taken effect while some entries of a directory were processed, at whatever depth below
them, all entries behind them and everything below those are walked as `readDir` walks
them from the state with the raised limit; a part of the walk that ends before the poll is
walked under the old limit. A directory that was refused under the old limit before the
increase is passed over by the loop of its parent, which goes on with the entries behind
it: the listing of the refused directory plays no part in the rest of the walk, so its
files stay absent. The new limit is the old one plus 2, and every directory permitted
under the old limit is permitted under the new one, where the addition does not wrap
around. -/
theorem C14_increase_during_walk (sep : Nat) (done : Nat → Bool) (k : Nat) :
    (∀ path listing w, w.polls = k →
        readDirSignal sep done (signalAt k) path listing w =
          readDir sep done path listing { w with s := IncreaseDeep w.s }) ∧
      (∀ path listing w, k < w.polls →
        readDirSignal sep done (signalAt k) path listing w =
          readDir sep done path listing w) ∧
      (∀ path listing w, w.polls = k → (∀ n, done n = false) → listing.metadataOk = true →
        (readDirSignal sep done (signalAt k) path listing w).2.s.List =
          w.s.List ++
            flattenListing sep w.s.basePath (IncreaseDeep w.s).maxDeep path listing) ∧
      (∀ path name listing rest w, w.polls < k → done w.polls = false →
        canSearchDeeper w.s (Join sep path name) = false →
        rangeLoopSignal sep done (signalAt k) path (.dir name listing :: rest) w =
          rangeLoopSignal sep done (signalAt k) path rest { w with polls := w.polls + 1 }) ∧
      (∀ s path, -2 ^ 63 ≤ s.maxDeep → s.maxDeep + 2 < 2 ^ 63 →
        (IncreaseDeep s).maxDeep = s.maxDeep + 2 ∧
          (canSearchDeeper s path = true →
            canSearchDeeper (IncreaseDeep s) path = true)) ∧
      (∀ path entries w,
        (rangeLoopSignal sep done (signalAt k) path entries w).2.s.maxDeep =
          if w.polls ≤ k ∧
              k < (rangeLoopSignal sep done (signalAt k) path entries w).2.polls then
            (IncreaseDeep w.s).maxDeep
          else w.s.maxDeep) ∧
      (∀ root s,
        (StartSignal sep done (signalAt k) root s).2.s.maxDeep =
          if k < (StartSignal sep done (signalAt k) root s).2.polls then
            (IncreaseDeep s).maxDeep
          else s.maxDeep) ∧
      (∀ path pre post w, topMetadataOk pre = true → w.polls ≤ k →
        k < (rangeLoopSignal sep done (signalAt k) path pre w).2.polls →
        rangeLoopSignal sep done (signalAt k) path (pre ++ post) w =
            rangeLoop sep done path post
              (rangeLoopSignal sep done (signalAt k) path pre w).2 ∧
          (rangeLoopSignal sep done (signalAt k) path pre w).2.s.maxDeep =
            (IncreaseDeep w.s).maxDeep) ∧
      (∀ path entries w, (rangeLoop sep done path entries w).2.polls ≤ k →
        rangeLoopSignal sep done (signalAt k) path entries w =
          rangeLoop sep done path entries w) := by
  have hat : ∀ w : Walk, w.polls = k → signalAt k w.polls = true := by
    intro w h; simp [signalAt, h]
  have hnot : ∀ n, n ≠ k → signalAt k n = false := by
    intro n h; simp [signalAt, h]
  refine ⟨?_, ?_, ?_, ?_, ?_, ?_, ?_, ?_, ?_⟩
  · intro path listing w hw
    exact readDirSignal_arrived sep done (signalAt k) path listing w (hat w hw)
      (fun n hn => hnot n (by omega))
  · intro path listing w hw
    exact readDirSignal_quiet sep done (signalAt k) path listing w
      (fun n hn => hnot n (by omega))
  · intro path listing w hw hd hm
    rw [readDirSignal_arrived sep done (signalAt k) path listing w (hat w hw)
      (fun n hn => hnot n (by omega))]
    unfold Search.List
    rw [readDir_flatten sep done hd path listing hm]
    rfl
  · intro path name listing rest w hw hd hc
    have h := readDirSignal_refused sep done (signalAt k) (Join sep path name) listing w hd
      (hnot w.polls (by omega)) hc
    simp only [rangeLoopSignal, h]
  · intro s path hlo hhi
    have h := IncreaseDeep_maxDeep s hlo hhi
    exact ⟨h, canSearchDeeper_mono path rfl (by rw [h]; omega)⟩
  · intro path entries w
    exact rangeLoopSignal_maxDeep sep done k path entries w
  · intro root s
    have h := readDirSignal_maxDeep sep done k s.basePath root
      { s := s, polls := 0, log := [] }
    unfold StartSignal
    rw [h]
    simp
  · intro path pre post w hpre hle hlt
    have hm := rangeLoopSignal_maxDeep sep done k path pre w
    rw [if_pos ⟨hle, hlt⟩] at hm
    refine ⟨?_, hm⟩
    rw [rangeLoopSignal_append sep done (signalAt k) path post pre w hpre]
    exact rangeLoopSignal_quiet sep done (signalAt k) path post _
      (fun n hn => hnot n (by omega))
  · intro path entries w h
    exact rangeLoopSignal_before sep done k path entries w h

/-- Witness for C14: below `C:\r` with limit 2 the branches `x/d/f1` and `y/d/f2`. When
the increase takes effect as the walk enters `x`, the branch `y` behind it is walked by
`readDir` from the state that the walk of `x` leaves, with the raised limit 4, and both
`f1` and `f2` are collected. When it takes effect as the walk reaches `y`, after `x/d` was
refused, `f2` is collected and `f1` is not. -/
theorem C14_increase_during_walk_witness :
    (rangeLoopSignal backslash never (signalAt 1) (ascii "C:\\r") ([xEntry] ++ [yEntry])
          walkAtX =
        rangeLoop backslash never (ascii "C:\\r") [yEntry]
          (rangeLoopSignal backslash never (signalAt 1) (ascii "C:\\r") [xEntry] walkAtX).2 ∧
      (rangeLoopSignal backslash never (signalAt 1) (ascii "C:\\r") [xEntry]
        walkAtX).2.s.maxDeep = (IncreaseDeep walkAtX.s).maxDeep) ∧
      (StartSignal backslash never (signalAt 1) twoBranchTree freshStateC).2.s.List =
        [{ FileInfo := f1Info, path := ascii "C:\\r\\x\\d\\f1" },
         { FileInfo := f2Info, path := ascii "C:\\r\\y\\d\\f2" }] ∧
      (StartSignal backslash never (signalAt 3) twoBranchTree freshStateC).2.s.List =
        [{ FileInfo := f2Info, path := ascii "C:\\r\\y\\d\\f2" }] :=
  ⟨(C14_increase_during_walk backslash never 1).2.2.2.2.2.2.2.1 (ascii "C:\\r") [xEntry]
      [yEntry] walkAtX (by decide) (by decide) (by decide),
    by decide, by decide⟩

/-- C15, as stated, fails. On the state constructed for `C:\r`, whose directory holds the
files `a/b.js` and `a/b/c.js`, two consecutive `Start()` calls both return no error, but
in the second call the deadline elapses while the base directory is listed, before the
directory `a` is visited: `List()` has length 1 after the first call and still length 1
after the second. -/
theorem C15_counterexample :
    (Start backslash never jsTree freshStateC).1 = none ∧
      (Start backslash afterFirst jsTree
        (Start backslash never jsTree freshStateC).2.s).1 = none ∧
      (Start backslash never jsTree freshStateC).2.s.List.length = 1 ∧
      (Start backslash afterFirst jsTree
        (Start backslash never jsTree freshStateC).2.s).2.s.List.length = 1 := by
  decide

/-- C15, amended. `Start()` never clears the results: for every state and directory tree,
after a `Start()`, whatever it returns, the results are the results held before the call
followed by the records of that walk, which are the records the same walk collects from
empty results. Consequently two consecutive `Start()` calls on the same state and the same
tree, in which the deadline elapses at the same poll or in neither, leave every discovered
file recorded twice, and the length of `List()` after the second call is twice its length
after the first (starting from empty results). -/
theorem C15_start_accumulates (sep : Nat) (done : Nat → Bool) (root : Listing) (s : Search) :
    (Start sep done root s).1 = (Start sep done root { s with list := [] }).1 ∧
      (Start sep done root s).2.s.List =
        s.List ++ (Start sep done root { s with list := [] }).2.s.List ∧
      (s.List = [] →
        (Start sep done root (Start sep done root s).2.s).2.s.List =
            (Start sep done root s).2.s.List ++ (Start sep done root s).2.s.List ∧
          (Start sep done root (Start sep done root s).2.s).2.s.List.length =
            2 * (Start sep done root s).2.s.List.length) := by
  have h1 := Start_uniform sep done root s
  refine ⟨h1.1, by rw [h1.2]; rfl, ?_⟩
  intro hnil
  have hs : ({ s with list := [] } : Search) = s := by
    cases s
    simp only [Search.List] at hnil
    simp [hnil]
  have h2 := Start_uniform sep done root (Start sep done root s).2.s
  have hfresh : ({ (Start sep done root s).2.s with list := [] } : Search) = s := by
    rw [h1.2]
    exact hs
  rw [hfresh] at h2
  have hl : (Start sep done root (Start sep done root s).2.s).2.s.List =
      (Start sep done root s).2.s.List ++ (Start sep done root s).2.s.List := by
    unfold Search.List
    rw [h2.2]
  refine ⟨hl, ?_⟩
  rw [hl, List.length_append]
  omega

/-- Witness for C15: two walks of the scenario tree from the state constructed for
`/r`. -/
theorem C15_start_accumulates_witness :
    (Start slash never jsTree (Start slash never jsTree freshState).2.s).2.s.List =
        (Start slash never jsTree freshState).2.s.List ++
          (Start slash never jsTree freshState).2.s.List ∧
      (Start slash never jsTree (Start slash never jsTree freshState).2.s).2.s.List.length =
        2 * (Start slash never jsTree freshState).2.s.List.length :=
  (C15_start_accumulates slash never jsTree freshState).2.2 rfl

/-- C16, as stated, fails. The directory `/x` is a subdirectory of the base path `/`, its
path holds the base path once, and it is listed: its file `/x/f` reaches the results (the
file `/x/y/f1` one level further down does not). The base path `/a/a` occurs twice in the
path `/a/a/a` of its subdirectory `a`, at the start and overlapping it from the third
byte, yet splitting yields two pieces and `canSearchDeeper` is true. -/
theorem C16_counterexample :
    (canSearchDeeper { maxDeep := 2, basePath := ascii "/", list := [] } (ascii "/x") = true ∧
      (Start slash never rootTree
        { maxDeep := 2, basePath := ascii "/", list := [] }).2.s.List =
        [{ FileInfo := fInfo, path := ascii "/x/f" }]) ∧
    (ascii "/a/a" <+: ascii "/a/a/a" ∧
      ascii "/a/a" <+: (ascii "/a/a/a").drop 2 ∧
      (Split (ascii "/a/a/a") (ascii "/a/a")).length = 2 ∧
      canSearchDeeper { maxDeep := 2, basePath := ascii "/a/a", list := [] }
        (ascii "/a/a/a") = true) := by
  decide

/-- C16, amended. For every `maxDeep`, `canSearchDeeper(path)` is false whenever splitting
`path` on the base path does not yield exactly two pieces, in particular whenever the
(non-empty) base path does not occur in `path`, and whenever `path` is the base path
followed by a remainder in which the base path occurs again; such a directory is never
listed: the visit returns at once, whatever the directory holds, and leaves the results
unchanged, however large `maxDeep` is. Examples are the base path `/a` with the directory
`/a/a`, and the base path `/` with every directory two or more levels below it. A directory
directly below the base path `/` (its name free of `/`) holds the base path once and is
judged by its name alone: `canSearchDeeper` is true if and only if the name has fewer than
two bytes or the number of backslash-delimited pieces of the name is at most `maxDeep`. -/
theorem C16_base_path_again (s : Search) :
    (∀ path, (Split path s.basePath).length ≠ 2 → canSearchDeeper s path = false) ∧
      (∀ path, s.basePath ≠ [] → ¬ s.basePath <:+: path → canSearchDeeper s path = false) ∧
      (∀ rest, s.basePath ≠ [] → s.basePath <:+: rest →
        canSearchDeeper s (s.basePath ++ rest) = false) ∧
      (∀ sep done path listing w, canSearchDeeper w.s path = false →
        readDir sep done path listing w = (none, { w with polls := w.polls + 1 })) ∧
      (s.basePath = ascii "/a" → canSearchDeeper s (ascii "/a/a") = false) ∧
      (∀ name below, s.basePath = [slash] →
        canSearchDeeper s (slash :: (name ++ slash :: below)) = false) ∧
      (∀ name, s.basePath = [slash] → slash ∉ name →
        (canSearchDeeper s (slash :: name) = true ↔
          name.length < 2 ∨ ((name.count backslash + 1 : Nat) : Int) ≤ s.maxDeep)) := by
  have h3 : ∀ rest, s.basePath ≠ [] → s.basePath <:+: rest →
      canSearchDeeper s (s.basePath ++ rest) = false := by
    intro rest hb h
    rw [canSearchDeeper_append s rest hb]
    simp [h]
  refine ⟨?_, ?_, h3, ?_, ?_, ?_, ?_⟩
  · intro path h
    unfold canSearchDeeper
    have : ((Split path s.basePath).length == 2) = false := by
      rw [beq_eq_false_iff_ne]; exact h
    simp [this]
  · intro path hb h
    unfold canSearchDeeper
    have hs : Split path s.basePath = [path] := by
      unfold Split
      rw [if_neg hb]
      exact genSplitLoop_one_piece _ h
    simp [hs]
  · intro sep done path listing w h
    cases listing <;> (unfold readDir; split <;> simp [h])
  · intro hb
    have h := h3 (ascii "/a") (by rw [hb]; decide) (by rw [hb])
    rw [hb] at h
    exact h
  · intro name below hb
    have h := h3 (name ++ slash :: below) (by rw [hb]; simp)
      (by rw [hb]; exact ⟨name, below, by simp⟩)
    rw [hb] at h
    exact h
  · intro name hb hn
    have hni : ¬ s.basePath <:+: name := by
      rw [hb]
      rintro ⟨l1, l2, h⟩
      apply hn
      rw [← h]
      simp
    have h := canSearchDeeper_append s name (by rw [hb]; simp)
    rw [hb] at h
    rw [hb] at hni
    simp only [List.singleton_append] at h
    rw [h]
    simp [hni]

/-- Witness for C16: the directory `/a/a` below the base path `/a`, with a large limit,
and the directory `/x` directly below the base path `/`. -/
theorem C16_base_path_again_witness :
    canSearchDeeper { maxDeep := 1000000, basePath := ascii "/a", list := [] }
        (ascii "/a" ++ ascii "/a") = false ∧
      (canSearchDeeper { maxDeep := 2, basePath := [slash], list := [] }
          (slash :: ascii "x") = true ↔
        (ascii "x").length < 2 ∨ (((ascii "x").count backslash + 1 : Nat) : Int) ≤ 2) :=
  ⟨(C16_base_path_again { maxDeep := 1000000, basePath := ascii "/a", list := [] }).2.2.1
      (ascii "/a") (by decide) (by decide),
    (C16_base_path_again { maxDeep := 2, basePath := [slash], list := [] }).2.2.2.2.2.2
      (ascii "x") rfl (by decide)⟩

/-- C17. The walk is monotone in the depth limit: for every base path and path, if
`canSearchDeeper(path)` holds with `maxDeep = D` then it holds with every `maxDeep`
`D' ≥ D`; and for every directory tree walked without deadline expiry and without listing
or metadata failure from empty results, the results obtained with limit `D` are a sublist
(same relative order) of the results obtained with limit `D'`. -/
theorem C17_monotone_in_limit (sep : Nat) (done : Nat → Bool) (root : Listing) (base : Str)
    (D D' : Int) (h : D ≤ D') :
    (∀ path l l', canSearchDeeper { maxDeep := D, basePath := base, list := l } path = true →
        canSearchDeeper { maxDeep := D', basePath := base, list := l' } path = true) ∧
      ((∀ n, done n = false) → root.listingsOk = true → root.metadataOk = true →
        (Start sep done root { maxDeep := D, basePath := base, list := [] }).2.s.List.Sublist
          (Start sep done root { maxDeep := D', basePath := base, list := [] }).2.s.List) := by
  constructor
  · intro path l l' hc
    exact canSearchDeeper_mono (s := { maxDeep := D, basePath := base, list := l }) path rfl h hc
  · intro hd _ hm
    unfold Search.List
    rw [Start_flatten sep done hd root hm, Start_flatten sep done hd root hm]
    simp only [List.nil_append]
    exact flattenListing_mono sep base D D' h base root

/-- Witness for C17: the scenario tree below `C:\r` with the limits 2 and 4. -/
theorem C17_monotone_in_limit_witness :
    (Start backslash never jsTree
        { maxDeep := 2, basePath := ascii "C:\\r", list := [] }).2.s.List.Sublist
      (Start backslash never jsTree
        { maxDeep := 4, basePath := ascii "C:\\r", list := [] }).2.s.List :=
  (C17_monotone_in_limit backslash never jsTree (ascii "C:\\r") 2 4 (by decide)).2
    (fun _ => rfl) (by decide) (by decide)

end Bpgo
